import Mathlib

/-!
Verification development for the semantic front-end of an incremental,
IDE-oriented compiler (stable item identities, pseudo-file addressing and
the fixed-point definition collector of `ra_hir`).

The definitions below are shallow embeddings of the Rust source:

* `crates/ra_hir/src/ids.rs` — breadth-first stable item-slot allocation
  (`SourceFileItems::from_source_file`, `bfs`) and pseudo-file parsing
  (`HirFileId::hir_parse`, `parse_macro`);
* `crates/ra_hir/src/nameres/collector.rs` — the definition collector
  (`DefCollector::update_recursive`, `record_resolved_import`,
  `resolve_macros`, `collect`, `ModCollector::push_child_module`,
  `resolve_submodule`).

Machine maps and arenas are embedded as association lists or as functions
out of `Nat`; mutation is embedded as explicit state passing; `panic!` is
embedded as `Option.none`.
-/

set_option maxHeartbeats 1600000

/- # Part 1: stable item slots (`ids.rs`, `SourceFileItems::from_source_file` and `bfs`) -/

/-- A syntax node: a label identifying the node across edits, a flag telling
whether the node is recorded by `from_source_file` (it is a module-level item
or a macro call), and the list of child nodes. -/
inductive STree where
  | node (label : Nat) (isItem : Bool) (children : List STree)

/-- Label of the root of a tree. -/
def STree.label : STree → Nat
  | .node l _ _ => l

/-- Whether the root of the tree is a recorded item. -/
def STree.isItem : STree → Bool
  | .node _ b _ => b

/-- Children of the root of the tree. -/
def STree.children : STree → List STree
  | .node _ _ cs => cs

@[simp] theorem STree.label_node (l : Nat) (b : Bool) (cs : List STree) :
    (STree.node l b cs).label = l := rfl

@[simp] theorem STree.isItem_node (l : Nat) (b : Bool) (cs : List STree) :
    (STree.node l b cs).isItem = b := rfl

@[simp] theorem STree.children_node (l : Nat) (b : Bool) (cs : List STree) :
    (STree.node l b cs).children = cs := rfl

mutual
/-- Number of nodes of a tree. -/
def STree.size : STree → Nat
  | .node _ _ cs => 1 + sizeForest cs

/-- Number of nodes of a forest. -/
def sizeForest : List STree → Nat
  | [] => 0
  | t :: ts => STree.size t + sizeForest ts
end

/-- One step of the `bfs` loop of `ids.rs`: the next layer is the
concatenation of the children of the current layer, in order. -/
def childrenBind (ts : List STree) : List STree :=
  ts.flatMap STree.children

/-- The data `f` observes on one layer: label and item-flag of each node,
in order. -/
def surfOf (ts : List STree) : List (Nat × Bool) :=
  ts.map fun t => (t.label, t.isItem)

@[simp] theorem surfOf_nil : surfOf [] = [] := rfl

@[simp] theorem surfOf_cons (t : STree) (ts : List STree) :
    surfOf (t :: ts) = (t.label, t.isItem) :: surfOf ts := rfl

@[simp] theorem childrenBind_nil : childrenBind [] = [] := rfl

@[simp] theorem childrenBind_cons (t : STree) (ts : List STree) :
    childrenBind (t :: ts) = t.children ++ childrenBind ts := rfl

theorem sizeForest_append (xs ys : List STree) :
    sizeForest (xs ++ ys) = sizeForest xs + sizeForest ys := by
  induction xs with
  | nil => simp [sizeForest]
  | cons t ts ih => simp [sizeForest, ih]; omega

theorem sizeForest_childrenBind (ts : List STree) :
    sizeForest (childrenBind ts) + ts.length = sizeForest ts := by
  induction ts with
  | nil => simp [sizeForest]
  | cons t ts ih =>
    cases t with
    | node l b cs =>
      simp only [childrenBind_cons, List.length_cons, sizeForest_append, STree.children] at ih ⊢
      simp only [sizeForest, STree.size]
      omega

/-- The visitation order of the `bfs` function of `ids.rs`: all nodes of the
current layer, then (recursively) all nodes of deeper layers. -/
def bfsAux : List STree → List (Nat × Bool)
  | [] => []
  | t :: ts => surfOf (t :: ts) ++ bfsAux (childrenBind (t :: ts))
termination_by l => sizeForest l
decreasing_by
  have h := sizeForest_childrenBind (t :: ts)
  simp only [List.length_cons] at h
  omega

theorem bfsAux_eq (ts : List STree) :
    bfsAux ts = surfOf ts ++ bfsAux (childrenBind ts) := by
  cases ts with
  | nil => simp [bfsAux]
  | cons t ts => simp only [bfsAux]

/-- The labels of recorded items among a node-visitation list, in order:
`from_source_file` allocates slot `k` to the `k`-th such node. -/
def itemsOf (l : List (Nat × Bool)) : List Nat :=
  (l.filter fun p => p.2).map fun p => p.1

/-- The slot allocated to label `lab` by the breadth-first item numbering of
`from_source_file`, if `lab` is recorded at all. -/
def slotOf (t : STree) (lab : Nat) : Option Nat :=
  (itemsOf (bfsAux [t])).findIdx? fun x => x == lab

/-- The first `d` layers of the breadth-first traversal of a forest. -/
def layersUpTo : Nat → List STree → List (Nat × Bool)
  | 0, _ => []
  | d + 1, ts => surfOf ts ++ layersUpTo d (childrenBind ts)

/-- `d`-fold application of `childrenBind`. -/
def cbIter : Nat → List STree → List STree
  | 0, ts => ts
  | d + 1, ts => cbIter d (childrenBind ts)

theorem bfsAux_layers (d : Nat) (ts : List STree) :
    bfsAux ts = layersUpTo d ts ++ bfsAux (cbIter d ts) := by
  induction d generalizing ts with
  | zero => simp [layersUpTo, cbIter]
  | succ d ih =>
    rw [bfsAux_eq, layersUpTo, cbIter, ih (childrenBind ts), List.append_assoc]

/-- Insertion of one new subtree at depth `d` into a forest: `here` inserts a
new root in front of the current position, `tail` moves right past a sibling,
`child` descends into the children of the head node. -/
inductive Ins : Nat → List STree → List STree → Prop where
  | here (newT : STree) (ts : List STree) : Ins 0 ts (newT :: ts)
  | tail (t : STree) {d : Nat} {ts ts' : List STree} :
      Ins d ts ts' → Ins d (t :: ts) (t :: ts')
  | child (l : Nat) (b : Bool) {d : Nat} {cs cs' : List STree} (ts : List STree) :
      Ins d cs cs' → Ins (d + 1) (.node l b cs :: ts) (.node l b cs' :: ts)

theorem Ins.prepend {d : Nat} {ts ts' : List STree} (p : List STree)
    (h : Ins d ts ts') : Ins d (p ++ ts) (p ++ ts') := by
  induction p with
  | nil => simpa using h
  | cons t p ih => exact Ins.tail t ih

theorem Ins.append_right {d : Nat} {ts ts' : List STree} (q : List STree)
    (h : Ins d ts ts') : Ins d (ts ++ q) (ts' ++ q) := by
  induction h with
  | here newT ts => exact Ins.here newT (ts ++ q)
  | tail t _ ih => exact Ins.tail t ih
  | child l b ts hcs _ => exact Ins.child l b (ts ++ q) hcs

theorem Ins.step {e : Nat} {ts ts' : List STree} (h : Ins e ts ts') :
    ∀ d, e = d + 1 →
      surfOf ts' = surfOf ts ∧ Ins d (childrenBind ts) (childrenBind ts') := by
  induction h with
  | here newT ts => exact fun d hd => absurd hd (by omega)
  | tail t hins ih =>
    intro d hd
    obtain ⟨hsurf, hbind⟩ := ih d hd
    refine ⟨by simp [hsurf], ?_⟩
    simp only [childrenBind_cons]
    exact Ins.prepend (p := t.children) hbind
  | child l b ts hcs ih =>
    intro d hd
    have hde := Nat.succ_injective hd
    refine ⟨by simp, ?_⟩
    simp only [childrenBind_cons, STree.children]
    subst hde
    exact Ins.append_right (q := childrenBind ts) hcs

theorem Ins.layers_eq {d : Nat} {ts ts' : List STree} (h : Ins d ts ts') :
    layersUpTo d ts' = layersUpTo d ts := by
  induction d generalizing ts ts' with
  | zero => simp [layersUpTo]
  | succ d ih =>
    obtain ⟨hsurf, hbind⟩ := h.step d rfl
    simp [layersUpTo, hsurf, ih hbind]

theorem itemsOf_append (l₁ l₂ : List (Nat × Bool)) :
    itemsOf (l₁ ++ l₂) = itemsOf l₁ ++ itemsOf l₂ := by
  simp [itemsOf]

theorem findIdx_append_of_mem {α : Type} (p : α → Bool) (l₁ l₂ : List α)
    (h : (l₁.findIdx? p).isSome) :
    (l₁ ++ l₂).findIdx? p = l₁.findIdx? p := by
  rcases hv : l₁.findIdx? p with _ | v
  · rw [hv] at h; simp at h
  · rw [List.findIdx?_append, hv]; rfl

theorem findIdx_isSome_of_mem {a : Nat} {l : List Nat} (h : a ∈ l) :
    (l.findIdx? fun x => x == a).isSome := by
  rw [List.findIdx?_isSome]
  exact List.any_eq_true.mpr ⟨a, h, by simp⟩

theorem bfsAux_nil : bfsAux ([] : List STree) = [] := by
  simp only [bfsAux]

theorem bfsAux_cons (t : STree) (ts : List STree) :
    bfsAux (t :: ts) = surfOf (t :: ts) ++ bfsAux (childrenBind (t :: ts)) := by
  simp only [bfsAux]

/-- C1 (amended): the breadth-first slot numbering of
`SourceFileItems::from_source_file` is stable below the insertion depth.
If a new subtree is inserted at depth `d` of the file tree, then every
pre-existing item lying in the first `d` layers (depth strictly less than the
inserted node's depth — in particular every ancestor of the insertion point)
keeps exactly the slot it had before the insertion.  Items at the same depth
as, or deeper than, the inserted node may shift, which is why the claim as
frozen is corrected. -/
theorem slot_stability_below_insertion_depth (d : Nat) (t t' : STree) (lab : Nat)
    (hins : Ins d [t] [t'])
    (hlab : lab ∈ itemsOf (layersUpTo d [t])) :
    slotOf t' lab = slotOf t lab := by
  have hlayers := hins.layers_eq
  have hsome : ((itemsOf (layersUpTo d [t])).findIdx? fun x => x == lab).isSome :=
    findIdx_isSome_of_mem hlab
  unfold slotOf
  rw [bfsAux_layers d [t], bfsAux_layers d [t'], itemsOf_append, itemsOf_append, hlayers]
  rw [findIdx_append_of_mem _ _ _ hsome, findIdx_append_of_mem _ _ _ hsome]

/-- Witness for C1: inserting a node at depth 2 (inside the first top-level
item) leaves the slot of the depth-1 item labelled `2` unchanged. -/
theorem slot_stability_below_insertion_depth_witness :
    (2 ∈ itemsOf (layersUpTo 2 [STree.node 0 false
        [.node 1 true [.node 3 true []], .node 2 true []]])) ∧
    slotOf (.node 0 false [.node 1 true [.node 9 true [], .node 3 true []],
        .node 2 true []]) 2
      = slotOf (.node 0 false [.node 1 true [.node 3 true []], .node 2 true []]) 2 := by
  constructor
  · simp [layersUpTo, itemsOf]
  · exact slot_stability_below_insertion_depth 2 _ _ 2
      (Ins.child 0 false []
        (Ins.child 1 true [.node 2 true []]
          (Ins.here (.node 9 true []) [.node 3 true []])))
      (by simp [layersUpTo, itemsOf])

/-- Counterexample for C1 as frozen: inserting a new item between two
pre-existing sibling items changes the slot of the later sibling, so it is
not true that the slot of every pre-existing item is unchanged. -/
theorem slot_stability_counterexample :
    Ins 1 [STree.node 0 false [.node 1 true [], .node 2 true []]]
        [STree.node 0 false [.node 1 true [], .node 3 true [], .node 2 true []]] ∧
    (2 ∈ itemsOf (bfsAux [STree.node 0 false [.node 1 true [], .node 2 true []]])) ∧
    slotOf (.node 0 false [.node 1 true [], .node 3 true [], .node 2 true []]) 2
      ≠ slotOf (.node 0 false [.node 1 true [], .node 2 true []]) 2 := by
  refine ⟨Ins.child 0 false []
    (Ins.tail (.node 1 true []) (Ins.here (.node 3 true []) [.node 2 true []])), ?_, ?_⟩
  · simp [bfsAux_cons, bfsAux_nil, itemsOf]
  · simp [slotOf, bfsAux_cons, bfsAux_nil, itemsOf, List.findIdx?]

/- # Part 2: the definition collector (`nameres/collector.rs`) -/

/-- A resolved definition as stored in module scopes (`ModuleDef`): a module
(identified by owning package and module index), an enum, an enum variant, or
any other kind of definition (identified by an opaque code). -/
inductive ModuleDefM where
  | module (krate : Nat) (module_id : Nat)
  | enumDef (e : Nat)
  | enumVariant (e v : Nat)
  | other (k : Nat)
deriving DecidableEq

/-- `PerNs<ModuleDef>`: one optional definition per namespace. -/
structure PerNsM where
  types : Option ModuleDefM
  values : Option ModuleDefM
deriving DecidableEq

/-- `PerNs::none()`. -/
def perNsNone : PerNsM := ⟨none, none⟩

/-- `PerNs::types(t)`. -/
def perNsTypes (d : ModuleDefM) : PerNsM := ⟨some d, none⟩

/-- `PerNs::values(v)`. -/
def perNsValues (d : ModuleDefM) : PerNsM := ⟨none, some d⟩

/-- `PerNs::both(t, v)`. -/
def perNsBoth (a b : ModuleDefM) : PerNsM := ⟨some a, some b⟩

/-- `Resolution`: the two namespace slots plus the import that produced or
last touched the binding (`None` for a direct definition). -/
structure Resolution where
  def_ : PerNsM
  imp : Option Nat
deriving DecidableEq

/-- `Resolution::default()`: both namespace slots empty, no provenance. -/
def emptyResolution : Resolution := ⟨perNsNone, none⟩

/-- Namespace selector, used to state one fact about both slots. -/
inductive NsKind where
  | typesNs
  | valuesNs
deriving DecidableEq

/-- The chosen namespace slot of a resolution. -/
def Resolution.slot (r : Resolution) : NsKind → Option ModuleDefM
  | .typesNs => r.def_.types
  | .valuesNs => r.def_.values

/-- Lookup in an association list (embedding of the `FxHashMap` reads). -/
def lookupAssoc {β : Type} (l : List (String × β)) (k : String) : Option β :=
  (l.find? fun p => p.1 == k).map fun p => p.2

/-- Insert-or-replace in an association list (embedding of `FxHashMap::insert`
and of writing through `entry(..).or_default()`). -/
def insertAssoc {β : Type} : List (String × β) → String → β → List (String × β)
  | [], k, v => [(k, v)]
  | p :: ps, k, v => if p.1 == k then (k, v) :: ps else p :: insertAssoc ps k v

/-- A module scope: `scope.items`, the name → `Resolution` map. -/
abbrev ScopeM : Type := List (String × Resolution)

/-- Reading a scope entry the way `entry(name).or_default()` sees it. -/
def lookupScope (sc : ScopeM) (n : String) : Resolution :=
  (lookupAssoc sc n).getD emptyResolution

/-- Writing back a scope entry (`entry(name).or_default()` inserts the entry,
then the collector mutates it in place). -/
def setScope (sc : ScopeM) (n : String) (r : Resolution) : ScopeM :=
  insertAssoc sc n r

/-- `raw::ImportData`. -/
structure ImportDataM where
  path : List String
  alias_ : Option String
  is_glob : Bool
  is_prelude : Bool
  is_extern_crate : Bool
deriving DecidableEq

/-- The problems recorded into the definition map (`Problem`), as a closed
variant enum; the unresolved-module problem carries the suggested candidate
path (directory segments, file stem, extension). -/
structure RelPathM where
  dir : List String
  stem : String
  ext : String
deriving DecidableEq

/-- `Problem::UnresolvedModule { candidate }`. -/
inductive ProblemM where
  | unresolvedModule (candidate : RelPathM)
deriving DecidableEq

/-- One entry of the `unexpanded_macros` queue: owning module, interned macro
call id, invocation path, and (opaque) argument token tree. -/
structure MacroEntry where
  module_id : Nat
  call_id : Nat
  path : List String
  tt : Nat
deriving DecidableEq

/-- The collector state: the `CrateDefMap` under construction (module arena
split into per-field functions out of the module index, prelude, extern
prelude, macros, problems) together with the `DefCollector`'s own working
state (`glob_imports`, `unresolved_imports`, `unexpanded_macros`,
`global_macro_scope`). Arenas and hash maps are embedded as functions out of
`Nat` or as association lists. -/
structure DefCollectorM where
  krate : Nat
  root : Nat
  n_modules : Nat
  parentOf : Nat → Option Nat
  declarationOf : Nat → Option (Nat × Nat)
  definitionOf : Nat → Option Nat
  childrenOf : Nat → List (String × Nat)
  scopes : Nat → ScopeM
  prelude_ : Option (Nat × Nat)
  extern_prelude : List (String × ModuleDefM)
  public_macros : List (String × Nat)
  problems : List ((Nat × Nat) × ProblemM)
  glob_imports : Nat → List (Nat × Nat)
  unresolved_imports : List (Nat × Nat × ImportDataM)
  unexpanded_macros : List MacroEntry

/-- The read-only database surface the collector consumes for other crates:
finished definition maps of dependencies (`crate_def_map`), enum variants,
`Module::krate`, and public macro tables. -/
structure DbM where
  crate_scope : Nat → Nat → ScopeM
  enum_variants : Nat → List (Nat × Option String)
  module_krate : Nat → Nat → Option Nat
  crate_public_macros : Nat → List (String × Nat)

/-- `Option::or`. -/
def oor {α : Type} : Option α → Option α → Option α
  | some x, _ => some x
  | none, b => b

/-- The body of the per-name loop of `DefCollector::update_recursive`: the
three sequential conditional mutations of the existing scope entry, returning
the new entry and whether a namespace slot was filled. -/
def applyOne (ii : Option Nat) (existing res : Resolution) : Resolution × Bool :=
  let p1 : Resolution × Bool :=
    match existing.def_.types, res.def_.types with
    | none, some t =>
      ({ def_ := ⟨some t, existing.def_.values⟩, imp := oor ii res.imp }, true)
    | _, _ => (existing, false)
  let p2 : Resolution × Bool :=
    match p1.1.def_.values, res.def_.values with
    | none, some v =>
      ({ def_ := ⟨p1.1.def_.types, some v⟩, imp := oor ii res.imp }, true)
    | _, _ => (p1.1, false)
  let e3 : Resolution :=
    match p2.1.def_.types, p2.1.def_.values, res.def_.types, res.def_.values,
        p2.1.imp, res.imp with
    | none, none, none, none, none, some i => { p2.1 with imp := some i }
    | _, _, _, _, _, _ => p2.1
  (e3, p1.2 || p2.2)

/-- The per-name loop of `update_recursive` over the supplied resolutions,
threading the scope and the `changed` flag. -/
def applyResolutions (ii : Option Nat) :
    ScopeM × Bool → List (String × Resolution) → ScopeM × Bool
  | acc, [] => acc
  | (sc, ch), (n, res) :: rest =>
    let p := applyOne ii (lookupScope sc n) res
    applyResolutions ii (setScope sc n p.1, ch || p.2) rest

/-- Sequencing of fallible state transformers (the `for` loops whose body can
hit the fatal assertion embedded as `none`). -/
def foldOpt {α β : Type} (f : α → β → Option α) : α → List β → Option α
  | a, [] => some a
  | a, b :: bs =>
    match f a b with
    | none => none
    | some a2 => foldOpt f a2 bs

/-- `DefCollector::update_recursive`, written with explicit fuel
`fuel = 101 - depth`: apply the resolutions to the target module's scope; if
nothing changed, stop; otherwise forward the same resolutions to every module
with a registered glob-import edge from this module, at depth + 1 (one unit
of fuel less). The `depth > 100` fatal assertion
(`infinite recursion in glob imports!`) is the `fuel = 0` case, embedded as
`none`. -/
def update_rec_fuel : Nat → DefCollectorM → Nat → Option Nat →
    List (String × Resolution) → Option DefCollectorM
  | 0, _, _, _, _ => none
  | fuel + 1, st, module_id, ii, resolutions =>
    match applyResolutions ii (st.scopes module_id, false) resolutions with
    | (sc, false) => some { st with scopes := Function.update st.scopes module_id sc }
    | (sc, true) =>
      let st1 : DefCollectorM := { st with scopes := Function.update st.scopes module_id sc }
      foldOpt (fun s g => update_rec_fuel fuel s g.1 (some g.2) resolutions) st1
        (st1.glob_imports module_id)

/-- `DefCollector::update_recursive` with its original depth parameter:
`depth > 100` gives `101 - depth = 0`, the fatal-assertion case. -/
def update_recursive (st : DefCollectorM) (module_id : Nat) (ii : Option Nat)
    (resolutions : List (String × Resolution)) (depth : Nat) : Option DefCollectorM :=
  update_rec_fuel (101 - depth) st module_id ii resolutions

/-- `DefCollector::update`: `update_recursive` at depth 0. -/
def update (st : DefCollectorM) (module_id : Nat) (ii : Option Nat)
    (resolutions : List (String × Resolution)) : Option DefCollectorM :=
  update_recursive st module_id ii resolutions 0

/-- The per-variant resolutions built for a glob import of an enum: every
named variant is bound in both namespaces (`PerNs::both(variant, variant)`). -/
def variantResolutions (db : DbM) (e : Nat) (import_id : Nat) :
    List (String × Resolution) :=
  (db.enum_variants e).filterMap fun pv =>
    match pv.2 with
    | some name =>
      some (name,
        { def_ := perNsBoth (.enumVariant e pv.1) (.enumVariant e pv.1),
          imp := some import_id })
    | none => none

/-- `DefCollector::record_resolved_import`: apply one resolved (or empty)
incoming import to the importing module. A glob import of a prelude module installs
the prelude; of a module from another crate copies that crate's finished
scope once; of a module from this crate copies the current scope and
registers a glob-propagation edge; of an enum binds all variants; any other
glob target binds nothing. A non-glob import binds the last path segment (or
its alias) with the resolved namespaces, and an extern-crate import in the
crate root additionally enters the name into the extern prelude. -/
def record_resolved_import (db : DbM) (st : DefCollectorM) (module_id : Nat)
    (defPer : PerNsM) (import_id : Nat) (imp_data : ImportDataM) :
    Option DefCollectorM :=
  if imp_data.is_glob then
    match defPer.types with
    | some (.module mk mm) =>
      if imp_data.is_prelude then
        some { st with prelude_ := some (mk, mm) }
      else if mk ≠ st.krate then
        update st module_id (some import_id) (db.crate_scope mk mm)
      else
        match update st module_id (some import_id) (st.scopes mm) with
        | none => none
        | some st2 =>
          let gi := Function.update st2.glob_imports mm
            (st2.glob_imports mm ++ [(module_id, import_id)])
          some { st2 with glob_imports := gi }
    | some (.enumDef e) =>
      update st module_id (some import_id) (variantResolutions db e import_id)
    | some _ => some st
    | none => some st
  else
    match imp_data.path.getLast? with
    | some last_segment =>
      let name := imp_data.alias_.getD last_segment
      let st1 :=
        if imp_data.is_extern_crate ∧ module_id = st.root then
          match defPer.types with
          | some d => { st with extern_prelude := insertAssoc st.extern_prelude name d }
          | none => st
        else st
      update st1 module_id (some import_id)
        [(name, { def_ := defPer, imp := some import_id })]
    | none => some st

/-- `ModCollector::push_child_module`: allocate a fresh module in the arena,
set its parent, declaration and definition, register it in the parent's
children map, and bind its name in the parent scope as a type-namespace-only
resolution with no import provenance. -/
def push_child_module (st : DefCollectorM) (module_id : Nat) (name : String)
    (declaration : Nat × Nat) (definition : Option Nat) :
    Option (Nat × DefCollectorM) :=
  let res := st.n_modules
  let st1 : DefCollectorM := { st with
    n_modules := st.n_modules + 1
    parentOf := Function.update st.parentOf res (some module_id)
    declarationOf := Function.update st.declarationOf res (some declaration)
    definitionOf := Function.update st.definitionOf res definition
    childrenOf := Function.update st.childrenOf module_id
      (insertAssoc (st.childrenOf module_id) name res) }
  let resolution : Resolution :=
    { def_ := perNsTypes (.module st.krate res), imp := none }
  match update st1 module_id none [(name, resolution)] with
  | none => none
  | some st2 => some (res, st2)

/-- The tail of `DefCollector::collect`: after the fixed-point loop, drain the
unresolved-import queue and apply every remaining import with
`PerNs::none()`. -/
def apply_unresolved_imports (db : DbM) (st : DefCollectorM) : Option DefCollectorM :=
  let imps := st.unresolved_imports
  let st0 := { st with unresolved_imports := [] }
  foldOpt (fun s e => record_resolved_import db s e.1 perNsNone e.2.1 e.2.2) st0 imps

/-- `ReachedFixedPoint`. -/
inductive ReachedFixedPoint where
  | yes
  | no
deriving DecidableEq

/-- One entry of the resolved list built by `resolve_macros`: owning module,
call id, (crate, macro id) of the definition, argument token tree. -/
structure ResolvedMacro where
  module_id : Nat
  call_id : Nat
  def_id : Nat × Nat
  tt : Nat
deriving DecidableEq

/-- Modelled from the spec: `CrateDefMap::resolve_name_in_extern_prelude`
lives in `nameres/mod.rs`, which is not among the provided sources. Per the
spec the external-package prelude maps a name to a dependency's root module,
so the lookup produces a type-namespace-only `PerNs` when the name is
present and an empty one otherwise. -/
def resolve_name_in_extern_prelude (st : DefCollectorM) (name : String) : PerNsM :=
  match lookupAssoc st.extern_prelude name with
  | some d => perNsTypes d
  | none => perNsNone

/-- The decision the `resolve_macros` retain-loop takes for one queued macro
invocation: keep it queued, drop it permanently, or resolve it. -/
inductive MacroStepRes where
  | keepQueued
  | dropForever
  | resolveTo (r : ResolvedMacro)
deriving DecidableEq

/-- The body of the retain-closure of `DefCollector::resolve_macros`: an
invocation is actionable only if its path has exactly two segments; the
first segment must resolve in the extern prelude to a module whose owning
crate is known; then the second segment is looked up in that crate's public
macro table — found means resolve, absent means drop permanently. In every
other case the invocation stays queued. -/
def macroStep (db : DbM) (st : DefCollectorM) (e : MacroEntry) : MacroStepRes :=
  match e.path with
  | [seg0, seg1] =>
    match (resolve_name_in_extern_prelude st seg0).types with
    | some (.module mk mm) =>
      match db.module_krate mk mm with
      | some krate =>
        match lookupAssoc (db.crate_public_macros krate) seg1 with
        | some macro_id =>
          .resolveTo ⟨e.module_id, e.call_id, (krate, macro_id), e.tt⟩
        | none => .dropForever
      | none => .keepQueued
    | _ => .keepQueued
  | _ => .keepQueued

/-- The retain-loop of `DefCollector::resolve_macros`, running over the
vector that `std::mem::replace(&mut self.unexpanded_macros, Vec::new())`
moved out of the state (collector.rs line 293): returns the retained local
vector, the resolved list (in queue order) and the pass's
`ReachedFixedPoint` flag, which is `no` exactly when some invocation
progressed past the owning-package lookup (was resolved or permanently
dropped). The retained vector is a local value of `resolve_macros`; unlike
`resolve_imports`, which restores its retained vector with
`self.unresolved_imports = imports;` (line 113), `resolve_macros` never
stores it back into `self.unexpanded_macros` — see `resolve_macros_pass`
below for the whole-state effect. -/
def scanMacros (db : DbM) (st : DefCollectorM) :
    List MacroEntry → List MacroEntry × List ResolvedMacro × ReachedFixedPoint
  | [] => ([], [], .yes)
  | e :: es =>
    let r := scanMacros db st es
    match macroStep db st e with
    | .keepQueued => (e :: r.1, r.2.1, r.2.2)
    | .dropForever => (r.1, r.2.1, .no)
    | .resolveTo rr => (r.1, rr :: r.2.1, .no)

/-- `DefCollector::resolve_macros` as a transformation of the collector
state (collector.rs lines 292-321). The queue is moved out of the state by
`std::mem::replace(&mut self.unexpanded_macros, Vec::new())`, leaving the
state's queue empty; the retain loop runs over the moved-out local vector;
the resolved entries are then handed to `collect_macro_expansion` (whose
internals depend on code outside the provided sources, so the resolved
list is returned for inspection together with the pass's flag). The
retained vector `(scanMacros ..).1` is computed but never written back to
the state — the source has no counterpart of the
`self.unresolved_imports = imports;` restore of `resolve_imports` — so the
pass always ends with an empty `unexpanded_macros` queue, whatever the
retain closure chose to keep. -/
def resolve_macros_pass (db : DbM) (dm : DefCollectorM) :
    DefCollectorM × List ResolvedMacro × ReachedFixedPoint :=
  let macros0 := dm.unexpanded_macros
  let dm1 : DefCollectorM := { dm with unexpanded_macros := [] }
  let scanned := scanMacros db dm1 macros0
  (dm1, scanned.2.1, scanned.2.2)

/-- The fixed-point loop of `DefCollector::collect`, over an abstract round
function `step` standing for one `resolve_imports` pass followed by one
`resolve_macros` pass (their internals depend on path resolution code that is
outside the provided sources). `fuel` is `999` at entry, so the `i == 1000`
safety valve of the source corresponds to `fuel = 0`. Returns the final
state, the number of rounds executed, and whether the loop stopped because
both passes reported `ReachedFixedPoint::Yes` in the same round. -/
def collectLoopAux {σ : Type} (step : σ → σ × (ReachedFixedPoint × ReachedFixedPoint)) :
    Nat → σ → σ × Nat × Bool
  | fuel, st =>
    let p := step st
    if p.2 = (.yes, .yes) then (p.1, 1, true)
    else
      match fuel with
      | 0 => (p.1, 1, false)
      | f + 1 =>
        let r := collectLoopAux step f p.1
        (r.1, r.2.1 + 1, r.2.2)

/-- The main name-resolution loop of `DefCollector::collect`: round cap 1000. -/
def collectLoop {σ : Type} (step : σ → σ × (ReachedFixedPoint × ReachedFixedPoint))
    (st : σ) : σ × Nat × Bool :=
  collectLoopAux step 999 st

/- ## Scope and `applyOne` lemmas -/

theorem lookupAssoc_insertAssoc_self {β : Type} (l : List (String × β)) (k : String) (v : β) :
    lookupAssoc (insertAssoc l k v) k = some v := by
  induction l with
  | nil => simp [insertAssoc, lookupAssoc]
  | cons p ps ih =>
    by_cases hpk : p.1 = k
    · simp [insertAssoc, lookupAssoc, hpk]
    · simp only [insertAssoc, beq_iff_eq, hpk, if_false]
      simpa [lookupAssoc, List.find?_cons, hpk] using ih

theorem lookupAssoc_insertAssoc_ne {β : Type} (l : List (String × β)) {k k2 : String}
    (v : β) (hk : k2 ≠ k) :
    lookupAssoc (insertAssoc l k v) k2 = lookupAssoc l k2 := by
  have hk2 : ¬k = k2 := fun h => hk h.symm
  induction l with
  | nil => simp [insertAssoc, lookupAssoc, hk2]
  | cons p ps ih =>
    by_cases hpk : p.1 = k
    · simp [insertAssoc, lookupAssoc, List.find?_cons, hpk, hk2]
    · simp only [insertAssoc, beq_iff_eq, hpk, if_false]
      by_cases hp2 : p.1 = k2
      · simp [lookupAssoc, List.find?_cons, hp2]
      · simpa [lookupAssoc, List.find?_cons, hp2] using ih

theorem lookupScope_setScope (sc : ScopeM) (n n2 : String) (r : Resolution) :
    lookupScope (setScope sc n r) n2 = if n2 = n then r else lookupScope sc n2 := by
  by_cases h : n2 = n
  · subst h; simp [lookupScope, setScope, lookupAssoc_insertAssoc_self]
  · simp [lookupScope, setScope, lookupAssoc_insertAssoc_ne _ _ h, h]

/-- The namespace slot a name currently has in a module scope. -/
def scopeSlot (st : DefCollectorM) (m : Nat) (n : String) (ns : NsKind) :
    Option ModuleDefM :=
  (lookupScope (st.scopes m) n).slot ns

theorem applyOne_preserves (ii : Option Nat) (existing res : Resolution)
    (ns : NsKind) (d : ModuleDefM) (h : existing.slot ns = some d) :
    (applyOne ii existing res).1.slot ns = some d := by
  obtain ⟨⟨et, ev⟩, ei⟩ := existing
  obtain ⟨⟨rt, rv⟩, ri⟩ := res
  cases ns <;> cases et <;> cases ev <;> cases rt <;> cases rv <;> cases ei <;> cases ri <;>
    simp_all [applyOne, Resolution.slot, oor]

theorem applyOne_fills (ii : Option Nat) (existing res : Resolution)
    (ns : NsKind) (d : ModuleDefM) (h : res.slot ns = some d) :
    (applyOne ii existing res).1.slot ns ≠ none := by
  obtain ⟨⟨et, ev⟩, ei⟩ := existing
  obtain ⟨⟨rt, rv⟩, ri⟩ := res
  cases ns <;> cases et <;> cases ev <;> cases rt <;> cases rv <;> cases ei <;> cases ri <;>
    simp_all [applyOne, Resolution.slot, oor]

theorem applyOne_grow (ii : Option Nat) (existing res : Resolution)
    (ns : NsKind) (h0 : existing.slot ns = none)
    (h1 : (applyOne ii existing res).1.slot ns ≠ none) :
    res.slot ns ≠ none := by
  obtain ⟨⟨et, ev⟩, ei⟩ := existing
  obtain ⟨⟨rt, rv⟩, ri⟩ := res
  cases ns <;> cases et <;> cases ev <;> cases rt <;> cases rv <;> cases ei <;> cases ri <;>
    simp_all [applyOne, Resolution.slot, oor]

theorem applyOne_unchanged (ii : Option Nat) (existing res : Resolution)
    (h : (applyOne ii existing res).2 = false) (ns : NsKind) :
    (applyOne ii existing res).1.slot ns = existing.slot ns := by
  obtain ⟨⟨et, ev⟩, ei⟩ := existing
  obtain ⟨⟨rt, rv⟩, ri⟩ := res
  cases ns <;> cases et <;> cases ev <;> cases rt <;> cases rv <;> cases ei <;> cases ri <;>
    simp_all [applyOne, Resolution.slot, oor]

theorem applyResolutions_preserves (ii : Option Nat)
    (rs : List (String × Resolution)) :
    ∀ (sc : ScopeM) (ch : Bool) (n : String) (ns : NsKind) (d : ModuleDefM),
      (lookupScope sc n).slot ns = some d →
      (lookupScope (applyResolutions ii (sc, ch) rs).1 n).slot ns = some d := by
  induction rs with
  | nil => intro sc ch n ns d h; simpa [applyResolutions] using h
  | cons p rest ih =>
    intro sc ch n ns d h
    obtain ⟨pn, pres⟩ := p
    simp only [applyResolutions]
    apply ih
    rw [lookupScope_setScope]
    by_cases hn : n = pn
    · subst hn; rw [if_pos rfl]; exact applyOne_preserves _ _ _ _ _ h
    · rw [if_neg hn]; exact h

theorem applyResolutions_fills (ii : Option Nat)
    (rs : List (String × Resolution)) :
    ∀ (sc : ScopeM) (ch : Bool) (n : String) (res : Resolution) (ns : NsKind)
      (d : ModuleDefM), (n, res) ∈ rs → res.slot ns = some d →
      (lookupScope (applyResolutions ii (sc, ch) rs).1 n).slot ns ≠ none := by
  induction rs with
  | nil => intro sc ch n res ns d h; simp at h
  | cons p rest ih =>
    intro sc ch n res ns d hmem hres
    obtain ⟨pn, pres⟩ := p
    simp only [applyResolutions]
    rcases List.mem_cons.mp hmem with hhd | htl
    · have hn : n = pn := congrArg Prod.fst hhd
      have hr : res = pres := congrArg Prod.snd hhd
      subst hn; subst hr
      have hfill := applyOne_fills ii (lookupScope sc n) res ns d hres
      rcases ho : (applyOne ii (lookupScope sc n) res).1.slot ns with _ | dv
      · exact absurd ho hfill
      · have hset : (lookupScope (setScope sc n (applyOne ii (lookupScope sc n) res).1) n).slot ns
            = some dv := by rw [lookupScope_setScope, if_pos rfl]; exact ho
        have hres2 := applyResolutions_preserves ii rest
          (setScope sc n (applyOne ii (lookupScope sc n) res).1)
          (ch || (applyOne ii (lookupScope sc n) res).2) n ns dv hset
        simp [hres2]
    · exact ih _ _ n res ns d htl hres

theorem applyResolutions_grow (ii : Option Nat)
    (rs : List (String × Resolution)) :
    ∀ (sc : ScopeM) (ch : Bool) (n : String) (ns : NsKind),
      (lookupScope sc n).slot ns = none →
      (lookupScope (applyResolutions ii (sc, ch) rs).1 n).slot ns ≠ none →
      ∃ res, (n, res) ∈ rs ∧ res.slot ns ≠ none := by
  induction rs with
  | nil => intro sc ch n ns h0 h1; simp [applyResolutions] at h1; exact absurd h0 h1
  | cons p rest ih =>
    intro sc ch n ns h0 h1
    obtain ⟨pn, pres⟩ := p
    simp only [applyResolutions] at h1
    by_cases hsc : (lookupScope (setScope sc pn (applyOne ii (lookupScope sc pn) pres).1) n).slot ns = none
    · obtain ⟨res, hm, hns⟩ := ih _ _ n ns hsc h1
      exact ⟨res, List.mem_cons_of_mem _ hm, hns⟩
    · by_cases hn : n = pn
      · subst hn
        rw [lookupScope_setScope, if_pos rfl] at hsc
        exact ⟨pres, List.mem_cons_self .., applyOne_grow ii _ pres ns h0 hsc⟩
      · rw [lookupScope_setScope, if_neg hn] at hsc
        exact absurd h0 hsc

theorem applyResolutions_nochange (ii : Option Nat)
    (rs : List (String × Resolution)) :
    ∀ (sc : ScopeM) (ch : Bool),
      (applyResolutions ii (sc, ch) rs).2 = false →
      ch = false ∧ ∀ (n : String) (ns : NsKind),
        (lookupScope (applyResolutions ii (sc, ch) rs).1 n).slot ns
          = (lookupScope sc n).slot ns := by
  induction rs with
  | nil => intro sc ch h; simp [applyResolutions] at h ⊢; exact h
  | cons p rest ih =>
    intro sc ch h
    obtain ⟨pn, pres⟩ := p
    simp only [applyResolutions] at h ⊢
    obtain ⟨hch, hlook⟩ := ih _ _ h
    have hc2 : (applyOne ii (lookupScope sc pn) pres).2 = false := by
      rcases Bool.or_eq_false_iff.mp hch with ⟨_, h2⟩
      exact h2
    have hchf : ch = false := (Bool.or_eq_false_iff.mp hch).1
    refine ⟨hchf, fun n ns => ?_⟩
    rw [hlook n ns, lookupScope_setScope]
    by_cases hn : n = pn
    · subst hn; rw [if_pos rfl]; exact applyOne_unchanged ii _ pres hc2 ns
    · rw [if_neg hn]

/- ## Invariant predicates for `update_recursive` -/

/-- Monotonicity of scopes: a filled namespace slot keeps its value. -/
def MonoSt (st st2 : DefCollectorM) : Prop :=
  ∀ m n ns d, scopeSlot st m n ns = some d → scopeSlot st2 m n ns = some d

/-- All fields other than the scopes are untouched. -/
def NonScopeEq (st st2 : DefCollectorM) : Prop :=
  st2.krate = st.krate ∧ st2.root = st.root ∧ st2.n_modules = st.n_modules ∧
  st2.parentOf = st.parentOf ∧ st2.declarationOf = st.declarationOf ∧
  st2.definitionOf = st.definitionOf ∧ st2.childrenOf = st.childrenOf ∧
  st2.prelude_ = st.prelude_ ∧ st2.extern_prelude = st.extern_prelude ∧
  st2.public_macros = st.public_macros ∧ st2.problems = st.problems ∧
  st2.glob_imports = st.glob_imports ∧ st2.unresolved_imports = st.unresolved_imports ∧
  st2.unexpanded_macros = st.unexpanded_macros

/-- Every namespace slot supplied by the resolutions is filled (by some
definition) in module `m` of the final state. -/
def FillGuarSt (rs : List (String × Resolution)) (m : Nat) (st2 : DefCollectorM) : Prop :=
  ∀ n res ns d, (n, res) ∈ rs → res.slot ns = some d → scopeSlot st2 m n ns ≠ none

/-- Any slot that goes from empty to filled was supplied by the resolutions. -/
def GrowBoundSt (rs : List (String × Resolution)) (st st2 : DefCollectorM) : Prop :=
  ∀ m n ns, scopeSlot st m n ns = none → scopeSlot st2 m n ns ≠ none →
    ∃ res, (n, res) ∈ rs ∧ res.slot ns ≠ none

/-- Any module whose scope grew had the resolutions forwarded to every module
holding a glob-import edge from it. -/
def ChangedFwdSt (rs : List (String × Resolution)) (st st2 : DefCollectorM) : Prop :=
  ∀ B, (∃ n ns, scopeSlot st B n ns = none ∧ scopeSlot st2 B n ns ≠ none) →
    ∀ g, g ∈ st.glob_imports B → FillGuarSt rs g.1 st2

/-- The composable part of the postcondition of `update_recursive`. -/
def UpdP (rs : List (String × Resolution)) (st st2 : DefCollectorM) : Prop :=
  NonScopeEq st st2 ∧ MonoSt st st2 ∧ GrowBoundSt rs st st2 ∧ ChangedFwdSt rs st st2

theorem updP_refl (rs : List (String × Resolution)) (st : DefCollectorM) :
    UpdP rs st st := by
  refine ⟨⟨rfl, rfl, rfl, rfl, rfl, rfl, rfl, rfl, rfl, rfl, rfl, rfl, rfl, rfl⟩,
    fun m n ns d h => h, fun m n ns h0 h1 => absurd h0 h1, ?_⟩
  intro B hB g hg
  obtain ⟨n, ns, h0, h1⟩ := hB
  exact absurd h0 h1

theorem FillGuar_persist {rs : List (String × Resolution)} {m : Nat}
    {st1 st2 : DefCollectorM} (hf : FillGuarSt rs m st1) (hmono : MonoSt st1 st2) :
    FillGuarSt rs m st2 := by
  intro n res ns d hmem hres
  have h1 := hf n res ns d hmem hres
  rcases hx : scopeSlot st1 m n ns with _ | dv
  · exact absurd hx h1
  · have := hmono m n ns dv hx
    simp [this]

theorem nonScopeEq_trans {st1 st2 st3 : DefCollectorM}
    (h12 : NonScopeEq st1 st2) (h23 : NonScopeEq st2 st3) : NonScopeEq st1 st3 := by
  obtain ⟨a1, a2, a3, a4, a5, a6, a7, a8, a9, a10, a11, a12, a13, a14⟩ := h12
  obtain ⟨b1, b2, b3, b4, b5, b6, b7, b8, b9, b10, b11, b12, b13, b14⟩ := h23
  exact ⟨b1.trans a1, b2.trans a2, b3.trans a3, b4.trans a4, b5.trans a5,
    b6.trans a6, b7.trans a7, b8.trans a8, b9.trans a9, b10.trans a10,
    b11.trans a11, b12.trans a12, b13.trans a13, b14.trans a14⟩

theorem updP_trans {rs : List (String × Resolution)} {st1 st2 st3 : DefCollectorM}
    (h12 : UpdP rs st1 st2) (h23 : UpdP rs st2 st3) : UpdP rs st1 st3 := by
  obtain ⟨hn12, hm12, hg12, hc12⟩ := h12
  obtain ⟨hn23, hm23, hg23, hc23⟩ := h23
  refine ⟨nonScopeEq_trans hn12 hn23, fun m n ns d h => hm23 m n ns d (hm12 m n ns d h), ?_, ?_⟩
  · intro m n ns h0 h3
    rcases hmid : scopeSlot st2 m n ns with _ | dv
    · exact hg23 m n ns hmid h3
    · exact hg12 m n ns h0 (by simp [hmid])
  · intro B hB g hg
    obtain ⟨n, ns, h0, h3⟩ := hB
    rcases hmid : scopeSlot st2 B n ns with _ | dv
    · have hgB : g ∈ st2.glob_imports B := by rw [hn12.2.2.2.2.2.2.2.2.2.2.2.1]; exact hg
      exact hc23 B ⟨n, ns, hmid, h3⟩ g hgB
    · have hfg := hc12 B ⟨n, ns, h0, by simp [hmid]⟩ g hg
      exact FillGuar_persist hfg hm23

theorem foldOpt_updp (rs : List (String × Resolution))
    (f : DefCollectorM → Nat × Nat → Option DefCollectorM)
    (hf : ∀ s g s2, f s g = some s2 → UpdP rs s s2 ∧ FillGuarSt rs g.1 s2) :
    ∀ (l : List (Nat × Nat)) (a a2 : DefCollectorM), foldOpt f a l = some a2 →
      UpdP rs a a2 ∧ ∀ g, g ∈ l → FillGuarSt rs g.1 a2 := by
  intro l
  induction l with
  | nil =>
    intro a a2 h
    simp only [foldOpt, Option.some.injEq] at h
    subst h
    exact ⟨updP_refl rs a, by simp⟩
  | cons g gs ih =>
    intro a a2 h
    simp only [foldOpt] at h
    rcases hg : f a g with _ | a1
    · rw [hg] at h; exact absurd h (by simp)
    · rw [hg] at h
      obtain ⟨h1, hfg⟩ := hf a g a1 hg
      obtain ⟨h2, hrest⟩ := ih a1 a2 h
      refine ⟨updP_trans h1 h2, ?_⟩
      intro g2 hmem
      rcases List.mem_cons.mp hmem with heq | hmem2
      · subst heq
        exact FillGuar_persist hfg h2.2.1
      · exact hrest g2 hmem2

theorem scopeSlot_update (st : DefCollectorM) (m : Nat) (sc : ScopeM)
    (B : Nat) (n : String) (ns : NsKind) :
    scopeSlot { st with scopes := Function.update st.scopes m sc } B n ns
      = if B = m then (lookupScope sc n).slot ns else scopeSlot st B n ns := by
  by_cases h : B = m <;> simp [scopeSlot, Function.update_apply, h]

theorem update_rec_fuel_post :
    ∀ (fuel : Nat) (st : DefCollectorM) (m : Nat) (ii : Option Nat)
      (rs : List (String × Resolution)) (st2 : DefCollectorM),
      update_rec_fuel fuel st m ii rs = some st2 →
      UpdP rs st st2 ∧ FillGuarSt rs m st2 := by
  intro fuel
  induction fuel with
  | zero =>
    intro st m ii rs st2 h
    exact absurd h (by simp [update_rec_fuel])
  | succ fuel ih =>
    intro st m ii rs st2 h
    rw [update_rec_fuel] at h
    rcases hpr : applyResolutions ii (st.scopes m, false) rs with ⟨sc, ch⟩
    rw [hpr] at h
    cases ch with
    | false =>
      simp only [Option.some.injEq] at h
      subst h
      have hnc := applyResolutions_nochange ii rs (st.scopes m) false (by rw [hpr])
      have hsame : ∀ (n : String) (ns : NsKind),
          (lookupScope sc n).slot ns = (lookupScope (st.scopes m) n).slot ns := by
        intro n ns
        have hx := hnc.2 n ns
        rw [hpr] at hx
        simpa using hx
      have hslots : ∀ (B : Nat) (n : String) (ns : NsKind),
          scopeSlot { st with scopes := Function.update st.scopes m sc } B n ns
            = scopeSlot st B n ns := by
        intro B n ns
        rw [scopeSlot_update]
        by_cases hB : B = m
        · rw [if_pos hB, hB, hsame]; rfl
        · rw [if_neg hB]
      refine ⟨⟨⟨rfl, rfl, rfl, rfl, rfl, rfl, rfl, rfl, rfl, rfl, rfl, rfl, rfl, rfl⟩,
        fun B n ns d hd => by rw [hslots]; exact hd,
        fun B n ns h0 h1 => absurd h0 (by rw [hslots] at h1; exact h1), ?_⟩, ?_⟩
      · intro B hB g hg
        obtain ⟨n, ns, h0, h1⟩ := hB
        rw [hslots] at h1
        exact absurd h0 h1
      · intro n res ns d hmem hres
        have := applyResolutions_fills ii rs (st.scopes m) false n res ns d hmem hres
        rw [hpr] at this
        rw [scopeSlot_update, if_pos rfl]
        exact this
    | true =>
      simp only at h
      have hf : ∀ s (g : Nat × Nat) s2,
          update_rec_fuel fuel s g.1 (some g.2) rs = some s2 →
          UpdP rs s s2 ∧ FillGuarSt rs g.1 s2 := by
        intro s g s2 hs
        exact ih s g.1 (some g.2) rs s2 hs
      have hF := foldOpt_updp rs _ hf (st.glob_imports m)
        { st with scopes := Function.update st.scopes m sc } st2 h
      have hmono01 : MonoSt st { st with scopes := Function.update st.scopes m sc } := by
        intro B n ns d hd
        rw [scopeSlot_update]
        by_cases hB : B = m
        · rw [if_pos hB]
          subst hB
          have hp := applyResolutions_preserves ii rs (st.scopes B) false n ns d hd
          rw [hpr] at hp
          simpa using hp
        · rwa [if_neg hB]
      have hgrow01 : GrowBoundSt rs st { st with scopes := Function.update st.scopes m sc } := by
        intro B n ns h0 h1
        rw [scopeSlot_update] at h1
        by_cases hB : B = m
        · rw [if_pos hB] at h1
          subst hB
          have := applyResolutions_grow ii rs (st.scopes B) false n ns h0
          rw [hpr] at this
          exact this h1
        · rw [if_neg hB] at h1
          exact absurd h0 h1
      have hfill1 : FillGuarSt rs m { st with scopes := Function.update st.scopes m sc } := by
        intro n res ns d hmem hres
        have := applyResolutions_fills ii rs (st.scopes m) false n res ns d hmem hres
        rw [hpr] at this
        rw [scopeSlot_update, if_pos rfl]
        exact this
      obtain ⟨⟨hnse12, hmono12, hgrow12, hcf12⟩, hall⟩ := hF
      refine ⟨⟨?_, ?_, ?_, ?_⟩, ?_⟩
      · exact nonScopeEq_trans
          ⟨rfl, rfl, rfl, rfl, rfl, rfl, rfl, rfl, rfl, rfl, rfl, rfl, rfl, rfl⟩ hnse12
      · exact fun B n ns d hd => hmono12 B n ns d (hmono01 B n ns d hd)
      · intro B n ns h0 h2
        rcases hmid : scopeSlot { st with scopes := Function.update st.scopes m sc } B n ns
          with _ | dv
        · exact hgrow12 B n ns hmid h2
        · exact hgrow01 B n ns h0 (by simp [hmid])
      · intro B hB g hg
        obtain ⟨n, ns, h0, h2⟩ := hB
        rcases hmid : scopeSlot { st with scopes := Function.update st.scopes m sc } B n ns
          with _ | dv
        · exact hcf12 B ⟨n, ns, hmid, h2⟩ g hg
        · have hBm : B = m := by
            by_contra hBm
            rw [scopeSlot_update, if_neg hBm] at hmid
            rw [hmid] at h0
            exact Option.noConfusion h0
          subst hBm
          exact hall g hg
      · exact FillGuar_persist hfill1 hmono12

theorem update_recursive_post (st : DefCollectorM) (m : Nat) (ii : Option Nat)
    (rs : List (String × Resolution)) (depth : Nat) (st2 : DefCollectorM)
    (h : update_recursive st m ii rs depth = some st2) :
    UpdP rs st st2 ∧ FillGuarSt rs m st2 :=
  update_rec_fuel_post (101 - depth) st m ii rs st2 h

/-- A sequence of `DefCollector::update` calls: each batch is a target module,
an optional import id, and a resolution list. -/
def updateSeq (st : DefCollectorM) :
    List (Nat × Option Nat × List (String × Resolution)) → Option DefCollectorM :=
  foldOpt (fun s b => update s b.1 b.2.1 b.2.2) st

theorem updateSeq_mono :
    ∀ (batches : List (Nat × Option Nat × List (String × Resolution)))
      (st st2 : DefCollectorM), updateSeq st batches = some st2 → MonoSt st st2 := by
  intro batches
  induction batches with
  | nil =>
    intro st st2 h
    simp only [updateSeq, foldOpt, Option.some.injEq] at h
    subst h
    exact fun m n ns d hd => hd
  | cons b bs ih =>
    intro st st2 h
    simp only [updateSeq, foldOpt] at h
    rcases hb : update st b.1 b.2.1 b.2.2 with _ | st1
    · rw [hb] at h; exact absurd h (by simp)
    · rw [hb] at h
      have h1 := (update_rec_fuel_post 101 st b.1 b.2.1 b.2.2 st1 hb).1.2.1
      have h2 := ih st1 st2 h
      exact fun m n ns d hd => h2 m n ns d (h1 m n ns d hd)

/-- C2: binding monotonicity. Once a namespace slot (type or value) of a
name's `Resolution` in some module scope holds a definition, no sequence of
`DefCollector::update` calls — whatever the batches and their order — ever
changes that slot: it still holds the same definition afterwards, so only the
complementary, still-empty slot can be filled later. -/
theorem binding_monotonicity (st : DefCollectorM)
    (batches : List (Nat × Option Nat × List (String × Resolution)))
    (st2 : DefCollectorM) (h : updateSeq st batches = some st2)
    (m : Nat) (n : String) (ns : NsKind) (d : ModuleDefM)
    (hfilled : scopeSlot st m n ns = some d) :
    scopeSlot st2 m n ns = some d :=
  updateSeq_mono batches st st2 h m n ns d hfilled

/-- Sample state for the C2 witness: module 1 already binds `x` in the type
namespace and glob-propagates to module 0. -/
def stC2 : DefCollectorM :=
  { krate := 0, root := 0, n_modules := 2,
    parentOf := fun _ => none, declarationOf := fun _ => none,
    definitionOf := fun _ => none, childrenOf := fun _ => [],
    scopes := fun m => if m = 1 then [("x", ⟨⟨some (.other 5), none⟩, none⟩)] else [],
    prelude_ := none, extern_prelude := [], public_macros := [], problems := [],
    glob_imports := fun m => if m = 1 then [(0, 7)] else [],
    unresolved_imports := [], unexpanded_macros := [] }

/-- Batches for the C2 witness: a later update tries to rebind `x`'s type
slot (and fills other slots). -/
def batchesC2 : List (Nat × Option Nat × List (String × Resolution)) :=
  [(1, some 9, [("y", ⟨⟨none, some (.other 6)⟩, none⟩),
                ("x", ⟨⟨some (.other 7), some (.other 8)⟩, some 3⟩)])]

/-- Witness for C2 at a concrete state: the pre-filled type slot of `x` in
module 1 survives an update sequence that tries to overwrite it. -/
theorem binding_monotonicity_witness :
    scopeSlot stC2 1 "x" .typesNs = some (.other 5) ∧
    scopeSlot ((updateSeq stC2 batchesC2).get (by decide)) 1 "x" .typesNs
      = some (.other 5) :=
  ⟨by decide,
    binding_monotonicity stC2 batchesC2 _ (Option.some_get _).symm 1 "x" .typesNs
      (.other 5) (by decide)⟩

theorem foldOpt_total (f : DefCollectorM → Nat × Nat → Option DefCollectorM)
    (P : DefCollectorM → Prop) :
    ∀ (l : List (Nat × Nat)) (a : DefCollectorM), P a →
      (∀ s g, g ∈ l → P s → f s g ≠ none) →
      (∀ s g s2, f s g = some s2 → P s → P s2) →
      foldOpt f a l ≠ none := by
  intro l
  induction l with
  | nil => intro a _ _ _; simp [foldOpt]
  | cons g gs ih =>
    intro a hPa hne hpres
    simp only [foldOpt]
    rcases hg : f a g with _ | a1
    · exact absurd hg (hne a g (List.mem_cons_self ..) hPa)
    · exact ih a1 (hpres a g a1 hg hPa)
        (fun s g2 hg2 hs => hne s g2 (List.mem_cons_of_mem _ hg2) hs)
        hpres

theorem update_rec_fuel_total (rank : Nat → Nat) :
    ∀ (fuel : Nat) (st : DefCollectorM) (m : Nat) (ii : Option Nat)
      (rs : List (String × Resolution)),
      (∀ B g, g ∈ st.glob_imports B → rank g.1 < rank B) →
      rank m < fuel → update_rec_fuel fuel st m ii rs ≠ none := by
  intro fuel
  induction fuel with
  | zero => intro st m ii rs _ hm; omega
  | succ fuel ih =>
    intro st m ii rs hrk hm
    rw [update_rec_fuel]
    rcases hpr : applyResolutions ii (st.scopes m, false) rs with ⟨sc, ch⟩
    cases ch with
    | false => simp
    | true =>
      simp only
      refine foldOpt_total _ (fun s => ∀ B g, g ∈ s.glob_imports B → rank g.1 < rank B)
        (st.glob_imports m) _ hrk ?_ ?_
      · intro s g hgmem hPs
        exact ih s g.1 (some g.2) rs hPs
          (by have := hrk m g hgmem; omega)
      · intro s g s2 hs hPs
        have hns := (update_rec_fuel_post fuel s g.1 (some g.2) rs s2 hs).1.1
        intro B g2 hg2
        rw [hns.2.2.2.2.2.2.2.2.2.2.2.1] at hg2
        exact hPs B g2 hg2

/-- C8: the recursive binding update (`update_recursive`) hits its fatal
`infinite recursion in glob imports!` assertion exactly when the recursion
depth exceeds 100 (every call at depth greater than 100 panics), and under
the well-formed-package assumption — a rank function certifying that the
glob-propagation graph is acyclic with propagation chains of height at most
100 — the assertion branch is unreachable for every call to
`DefCollector::update`. -/
theorem glob_recursion_depth_bound :
    (∀ (st : DefCollectorM) (m : Nat) (ii : Option Nat)
      (rs : List (String × Resolution)) (depth : Nat), depth > 100 →
      update_recursive st m ii rs depth = none) ∧
    (∀ (rank : Nat → Nat) (st : DefCollectorM) (m : Nat) (ii : Option Nat)
      (rs : List (String × Resolution)),
      (∀ B g, g ∈ st.glob_imports B → rank g.1 < rank B) →
      (∀ B, rank B ≤ 100) →
      update st m ii rs ≠ none) := by
  constructor
  · intro st m ii rs depth hd
    have h0 : 101 - depth = 0 := by omega
    rw [update_recursive, h0, update_rec_fuel]
  · intro rank st m ii rs hrk hb
    exact update_rec_fuel_total rank 101 st m ii rs hrk (by have := hb m; omega)

/-- Witness for C8: on a concrete two-module state whose only glob edge goes
from module 1 to module 0, a direct call at depth 101 panics while the
depth-0 entry point cannot panic. -/
theorem glob_recursion_depth_bound_witness :
    update_recursive stC2 1 none [("y", ⟨⟨none, some (.other 6)⟩, none⟩)] 101 = none ∧
    update stC2 1 none [("y", ⟨⟨none, some (.other 6)⟩, none⟩)] ≠ none := by
  constructor
  · exact glob_recursion_depth_bound.1 stC2 1 none _ 101 (by omega)
  · refine glob_recursion_depth_bound.2 (fun B => if B = 1 then 1 else 0) stC2 1 none _
      ?_ ?_
    · intro B g hg
      by_cases hB : B = 1
      · subst hB
        have : g = (0, 7) := by simpa [stC2] using hg
        subst this
        simp
      · simp [stC2, hB] at hg
    · intro B
      by_cases hB : B = 1 <;> simp [hB]

theorem foldOpt_inv {β : Type} (f : DefCollectorM → β → Option DefCollectorM)
    (Q : DefCollectorM → Prop) :
    ∀ (l : List β) (a a2 : DefCollectorM), foldOpt f a l = some a2 → Q a →
      (∀ s g s2, g ∈ l → f s g = some s2 → Q s → Q s2) → Q a2 := by
  intro l
  induction l with
  | nil =>
    intro a a2 h hQ _
    simp only [foldOpt, Option.some.injEq] at h
    subst h
    exact hQ
  | cons g gs ih =>
    intro a a2 h hQ hstep
    simp only [foldOpt] at h
    rcases hg : f a g with _ | a1
    · rw [hg] at h; exact absurd h (by simp)
    · rw [hg] at h
      exact ih a1 a2 h (hstep a g a1 (List.mem_cons_self ..) hg hQ)
        (fun s g2 s2 hg2 => hstep s g2 s2 (List.mem_cons_of_mem _ hg2))

theorem applyOne_hold_types (ii : Option Nat) (old res0 : Resolution)
    (t0 : ModuleDefM) (h : old.def_.types = some t0)
    (hv : res0.def_.values = none) :
    applyOne ii old res0 = (old, false) := by
  obtain ⟨⟨ot, ov⟩, oi⟩ := old
  obtain ⟨⟨rt, rv⟩, ri⟩ := res0
  simp only [Resolution.mk.injEq, PerNsM.mk.injEq] at h hv ⊢
  subst h
  cases rv with
  | none => cases ov <;> cases rt <;> cases oi <;> cases ri <;> simp [applyOne, oor]
  | some rv => simp at hv

theorem applyOne_fresh_types (old : Resolution) (t : ModuleDefM)
    (h : old.def_.types = none) :
    applyOne none old ⟨⟨some t, none⟩, none⟩
      = (⟨⟨some t, old.def_.values⟩, none⟩, true) := by
  obtain ⟨⟨ot, ov⟩, oi⟩ := old
  simp only at h
  subst h
  cases ov <;> cases oi <;> simp [applyOne, oor]

theorem applyResolutions_singleton (ii : Option Nat) (sc : ScopeM)
    (n0 : String) (res0 : Resolution) :
    applyResolutions ii (sc, false) [(n0, res0)]
      = (setScope sc n0 (applyOne ii (lookupScope sc n0) res0).1,
         (applyOne ii (lookupScope sc n0) res0).2) := by
  simp [applyResolutions]

theorem update_rec_fuel_entry_fixed (n0 : String) (res0 : Resolution)
    (hv : res0.def_.values = none) (t0 : ModuleDefM) :
    ∀ (fuel : Nat) (s : DefCollectorM) (m2 : Nat) (ii2 : Option Nat)
      (s2 : DefCollectorM) (m0 : Nat),
      update_rec_fuel fuel s m2 ii2 [(n0, res0)] = some s2 →
      (lookupScope (s.scopes m0) n0).def_.types = some t0 →
      lookupScope (s2.scopes m0) n0 = lookupScope (s.scopes m0) n0 := by
  intro fuel
  induction fuel with
  | zero =>
    intro s m2 ii2 s2 m0 h _
    exact absurd h (by simp [update_rec_fuel])
  | succ fuel ih =>
    intro s m2 ii2 s2 m0 h hT
    rw [update_rec_fuel, applyResolutions_singleton] at h
    by_cases hm : m0 = m2
    · subst hm
      rw [applyOne_hold_types ii2 _ res0 t0 hT hv] at h
      simp only [Option.some.injEq] at h
      subst h
      simp [Function.update_same, lookupScope_setScope]
    · rcases hch : (applyOne ii2 (lookupScope (s.scopes m2) n0) res0).2 with _ | _
      · rw [hch] at h
        simp only [Option.some.injEq] at h
        subst h
        simp [Function.update_apply, hm]
      · rw [hch] at h
        simp only at h
        refine foldOpt_inv _ (fun sx => lookupScope (sx.scopes m0) n0
            = lookupScope (s.scopes m0) n0) _ _ s2 h ?_ ?_
        · simp [Function.update_apply, hm]
        · intro sx g sx2 _ hgx hQ
          have hfix := ih sx g.1 (some g.2) sx2 m0 hgx (by rw [hQ]; exact hT)
          rw [hfix, hQ]

theorem update_fresh_types_entry (s : DefCollectorM) (m : Nat) (name : String)
    (t : ModuleDefM) (s2 : DefCollectorM)
    (hT : (lookupScope (s.scopes m) name).def_.types = none)
    (h : update s m none [(name, ⟨⟨some t, none⟩, none⟩)] = some s2) :
    lookupScope (s2.scopes m) name
      = ⟨⟨some t, (lookupScope (s.scopes m) name).def_.values⟩, none⟩ := by
  rw [update, update_recursive, show (101 : Nat) - 0 = 100 + 1 from rfl,
    update_rec_fuel, applyResolutions_singleton,
    applyOne_fresh_types _ t hT] at h
  simp only at h
  refine foldOpt_inv _ (fun sx => lookupScope (sx.scopes m) name
      = ⟨⟨some t, (lookupScope (s.scopes m) name).def_.values⟩, none⟩) _ _ s2 h ?_ ?_
  · simp [Function.update_same, lookupScope_setScope]
  · intro sx g sx2 _ hgx hQ
    have hfix := update_rec_fuel_entry_fixed name ⟨⟨some t, none⟩, none⟩ rfl t 100
      sx g.1 (some g.2) sx2 m hgx (by rw [hQ])
    rw [hfix, hQ]

/-- C10 (implicit): `ModCollector::push_child_module` allocates the next
module index, records parent and child links, and binds the child's name in
the parent scope as a type-namespace-only resolution with no import
provenance: when the name's type slot was empty the entry afterwards holds
exactly the new child module in the type namespace, an unchanged value slot,
and no import; when the type slot was already filled the whole entry is left
untouched (the monotone `update` never displaces it). -/
theorem push_child_module_binding (st : DefCollectorM) (module_id : Nat)
    (name : String) (decl : Nat × Nat) (defn : Option Nat)
    (res : Nat) (st2 : DefCollectorM)
    (h : push_child_module st module_id name decl defn = some (res, st2)) :
    res = st.n_modules ∧
    st2.n_modules = st.n_modules + 1 ∧
    st2.parentOf res = some module_id ∧
    lookupAssoc (st2.childrenOf module_id) name = some res ∧
    ((lookupScope (st.scopes module_id) name).def_.types = none →
      lookupScope (st2.scopes module_id) name
        = ⟨⟨some (.module st.krate res),
            (lookupScope (st.scopes module_id) name).def_.values⟩, none⟩) ∧
    (∀ d, (lookupScope (st.scopes module_id) name).def_.types = some d →
      lookupScope (st2.scopes module_id) name
        = lookupScope (st.scopes module_id) name) := by
  simp only [push_child_module] at h
  split at h
  · exact absurd h (by simp)
  · rename_i stU hu
    simp only [Option.some.injEq, Prod.mk.injEq] at h
    obtain ⟨hres, hst2⟩ := h
    subst hst2
    subst hres
    have hpost := update_rec_fuel_post 101 _ _ _ _ _ hu
    obtain ⟨⟨hnse, _, _, _⟩, _⟩ := hpost
    refine ⟨rfl, ?_, ?_, ?_, ?_, ?_⟩
    · exact hnse.2.2.1
    · rw [show stU.parentOf = _ from hnse.2.2.2.1]
      simp
    · rw [show stU.childrenOf = _ from hnse.2.2.2.2.2.2.1]
      simp [lookupAssoc_insertAssoc_self]
    · intro hT
      have hx := update_fresh_types_entry _ module_id name
        (.module st.krate st.n_modules) stU (by exact hT) hu
      exact hx
    · intro d hT
      have hx := update_rec_fuel_entry_fixed name
        { def_ := perNsTypes (ModuleDefM.module st.krate st.n_modules), imp := none }
        rfl d 101 _ module_id none stU module_id hu (by exact hT)
      exact hx

/-- Witness for C10: pushing a child module named `sub` under module 1 of a
concrete state binds `sub` to the freshly allocated module in the type
namespace only, with no import provenance. -/
theorem push_child_module_binding_witness :
    (lookupScope (stC2.scopes 1) "sub").def_.types = none ∧
    lookupScope (((push_child_module stC2 1 "sub" (5, 3) none).get (by decide)).2.scopes 1)
      "sub" = ⟨⟨some (.module 0 2), none⟩, none⟩ := by
  have hs : (push_child_module stC2 1 "sub" (5, 3) none).isSome = true := by decide
  have hp := push_child_module_binding stC2 1 "sub" (5, 3) none
    ((push_child_module stC2 1 "sub" (5, 3) none).get hs).1
    ((push_child_module stC2 1 "sub" (5, 3) none).get hs).2
    (Option.some_get hs).symm
  refine ⟨by decide, ?_⟩
  have h5 := hp.2.2.2.2.1 (by decide)
  rw [hp.1] at h5
  exact h5.trans (by decide)

theorem emptyResolution_slot (ns : NsKind) : emptyResolution.slot ns = none := by
  cases ns <;> rfl

theorem lookupScope_mem (sc : ScopeM) (n : String) (r : Resolution)
    (h : lookupAssoc sc n = some r) : (n, r) ∈ sc := by
  simp only [lookupAssoc, Option.map_eq_some'] at h
  obtain ⟨p, hf, hp2⟩ := h
  have hmem := List.mem_of_find?_eq_some hf
  have hp1 : p.1 = n := by simpa using List.find?_some hf
  have hpr : p = (n, r) := by
    obtain ⟨p1, p2⟩ := p
    simp only at hp1 hp2
    rw [hp1, hp2]
  rwa [hpr] at hmem

theorem scopeSlot_some_mem (st : DefCollectorM) (B : Nat) (n : String)
    (ns : NsKind) (d : ModuleDefM) (h : scopeSlot st B n ns = some d) :
    ∃ r, (n, r) ∈ st.scopes B ∧ r.slot ns = some d := by
  rcases hl : lookupAssoc (st.scopes B) n with _ | r
  · exfalso
    simp only [scopeSlot, lookupScope, hl, Option.getD_none] at h
    rw [emptyResolution_slot] at h
    exact Option.noConfusion h
  · refine ⟨r, lookupScope_mem _ _ _ hl, ?_⟩
    simpa [scopeSlot, lookupScope, hl] using h

/-- The glob-propagation invariant: along every registered glob-import edge
`B → A`, everything bound in `B`'s scope is visible (bound to something) in
`A`'s scope. -/
def GlobInv (st : DefCollectorM) : Prop :=
  ∀ B g, g ∈ st.glob_imports B → ∀ n ns d, scopeSlot st B n ns = some d →
    scopeSlot st g.1 n ns ≠ none

theorem update_preserves_globinv (st : DefCollectorM) (m : Nat) (ii : Option Nat)
    (rs : List (String × Resolution)) (st2 : DefCollectorM)
    (h : update st m ii rs = some st2) (hinv : GlobInv st) : GlobInv st2 := by
  obtain ⟨⟨hnse, hmono, hgrow, hcf⟩, _⟩ := update_rec_fuel_post 101 st m ii rs st2 h
  intro B g hg n ns d hB
  have hgs : g ∈ st.glob_imports B := by
    rw [← hnse.2.2.2.2.2.2.2.2.2.2.2.1]
    exact hg
  rcases h0 : scopeSlot st B n ns with _ | d0
  · have hcf2 := hcf B ⟨n, ns, h0, by simp [hB]⟩ g hgs
    obtain ⟨res, hmem, hns⟩ := hgrow B n ns h0 (by simp [hB])
    rcases hres : res.slot ns with _ | dr
    · exact absurd hres hns
    · exact hcf2 n res ns dr hmem hres
  · have hA := hinv B g hgs n ns d0 h0
    rcases hx : scopeSlot st g.1 n ns with _ | dv
    · exact absurd hx hA
    · have := hmono g.1 n ns dv hx
      simp [this]

/-- C4: glob-propagation correctness for a same-package glob import of module
`B` into module `A`. First, applying the resolved import both copies `B`'s
current scope into `A` (every name bound in `B` beforehand is bound in `A`
afterwards) and registers the propagation edge `B → (A, import)`. Second,
once such an edge is registered, any later `update` that adds a binding to
`B`'s scope forwards it, so the added name is bound in `A`'s scope as well —
hence items added to `B` before and after the glob import is applied are all
visible in `A` when the pass finishes. -/
theorem glob_propagation (db : DbM) (st : DefCollectorM) (A B : Nat)
    (import_id : Nat) (defPer : PerNsM) (imp_data : ImportDataM)
    (st2 : DefCollectorM)
    (hglob : imp_data.is_glob = true) (hprel : imp_data.is_prelude = false)
    (htypes : defPer.types = some (.module st.krate B))
    (h : record_resolved_import db st A defPer import_id imp_data = some st2) :
    ((A, import_id) ∈ st2.glob_imports B ∧
      ∀ n ns d, scopeSlot st B n ns = some d → scopeSlot st2 A n ns ≠ none) ∧
    (∀ (stX stY : DefCollectorM) (m : Nat) (ii : Option Nat)
      (rs : List (String × Resolution)) (ii2 : Nat) (n : String) (ns : NsKind),
      (A, ii2) ∈ stX.glob_imports B →
      update stX m ii rs = some stY →
      scopeSlot stX B n ns = none → scopeSlot stY B n ns ≠ none →
      scopeSlot stY A n ns ≠ none) := by
  constructor
  · rw [record_resolved_import, if_pos hglob, htypes] at h
    simp only at h
    rw [if_neg (by simp [hprel])] at h
    rw [if_neg (by simp)] at h
    split at h
    · exact absurd h (by simp)
    · rename_i stU hu
      simp only [Option.some.injEq] at h
      subst h
      obtain ⟨⟨hnse, hmono, hgrow, hcf⟩, hfill⟩ := update_rec_fuel_post 101 _ _ _ _ _ hu
      constructor
      · simp only [Function.update_same]
        exact List.mem_append_right _ (List.mem_singleton.mpr rfl)
      · intro n ns d hB
        obtain ⟨r, hmem, hslot⟩ := scopeSlot_some_mem st B n ns d hB
        exact hfill n r ns d hmem hslot
  · intro stX stY m ii rs ii2 n ns hedge hupd h0 h1
    obtain ⟨⟨hnse, hmono, hgrow, hcf⟩, _⟩ := update_rec_fuel_post 101 _ _ _ _ _ hupd
    have hfillA := hcf B ⟨n, ns, h0, h1⟩ (A, ii2) hedge
    obtain ⟨res, hmem, hns⟩ := hgrow B n ns h0 h1
    rcases hres : res.slot ns with _ | dr
    · exact absurd hres hns
    · exact hfillA n res ns dr hmem hres

/-- Trivial external database for witnesses. -/
def dbC4 : DbM := ⟨fun _ _ => [], fun _ => [], fun _ _ => none, fun _ => []⟩

/-- A same-package glob import for the C4 witness. -/
def impC4 : ImportDataM := ⟨["b"], none, true, false, false⟩

/-- Witness for C4 on a concrete state: applying a same-package glob import of
module 1 into module 0 registers the edge and makes the pre-existing `x`
visible in module 0; and with an edge registered, adding `y` to module 1 by
`update` makes `y` visible in module 0. -/
theorem glob_propagation_witness :
    ((0, 9) ∈ ((record_resolved_import dbC4 stC2 0 ⟨some (.module 0 1), none⟩ 9
        impC4).get (by decide)).glob_imports 1 ∧
      scopeSlot ((record_resolved_import dbC4 stC2 0 ⟨some (.module 0 1), none⟩ 9
        impC4).get (by decide)) 0 "x" .typesNs ≠ none) ∧
    scopeSlot ((update stC2 1 none [("y", ⟨⟨none, some (.other 6)⟩, none⟩)]).get
      (by decide)) 0 "y" .valuesNs ≠ none := by
  have hs1 : (record_resolved_import dbC4 stC2 0 ⟨some (.module 0 1), none⟩ 9
      impC4).isSome = true := by decide
  have hs2 : (update stC2 1 none
      [("y", ⟨⟨none, some (.other 6)⟩, none⟩)]).isSome = true := by decide
  have hp := glob_propagation dbC4 stC2 0 1 9 ⟨some (.module 0 1), none⟩ impC4
    ((record_resolved_import dbC4 stC2 0 ⟨some (.module 0 1), none⟩ 9 impC4).get hs1)
    rfl rfl (by decide) (Option.some_get hs1).symm
  have h1 : scopeSlot ((update stC2 1 none
      [("y", ⟨⟨none, some (.other 6)⟩, none⟩)]).get (by decide)) 1 "y"
      NsKind.valuesNs ≠ none := by decide
  refine ⟨⟨hp.1.1, hp.1.2 "x" .typesNs (.other 5) (by decide)⟩, ?_⟩
  exact hp.2 stC2
    ((update stC2 1 none [("y", ⟨⟨none, some (.other 6)⟩, none⟩)]).get hs2)
    1 none [("y", ⟨⟨none, some (.other 6)⟩, none⟩)] 7 "y" .valuesNs
    (by decide) (Option.some_get hs2).symm (by decide) h1

theorem collectLoopAux_rounds {σ : Type}
    (step : σ → σ × (ReachedFixedPoint × ReachedFixedPoint)) :
    ∀ (fuel : Nat) (st : σ), (collectLoopAux step fuel st).2.1 ≤ fuel + 1 := by
  intro fuel
  induction fuel with
  | zero =>
    intro st
    simp only [collectLoopAux]
    by_cases hyes : (step st).2 = (.yes, .yes) <;> simp [hyes]
  | succ f ih =>
    intro st
    simp only [collectLoopAux]
    by_cases hyes : (step st).2 = (.yes, .yes)
    · simp [hyes]
    · simp only [hyes, if_false]
      have := ih (step st).1
      omega

theorem collectLoopAux_immediate {σ : Type}
    (step : σ → σ × (ReachedFixedPoint × ReachedFixedPoint))
    (st st1 : σ) (h : step st = (st1, (.yes, .yes))) (fuel : Nat) :
    collectLoopAux step fuel st = (st1, 1, true) := by
  cases fuel with
  | zero => simp [collectLoopAux, h]
  | succ f => simp [collectLoopAux, h]

theorem collectLoopAux_converges {σ : Type}
    (step : σ → σ × (ReachedFixedPoint × ReachedFixedPoint)) (mu : σ → Nat)
    (hmu : ∀ s, (step s).2 ≠ (.yes, .yes) → mu (step s).1 < mu s) :
    ∀ (fuel : Nat) (st : σ), mu st ≤ fuel →
      (collectLoopAux step fuel st).2.2 = true ∧
      (collectLoopAux step fuel st).2.1 ≤ mu st + 1 := by
  intro fuel
  induction fuel with
  | zero =>
    intro st h0
    by_cases hyes : (step st).2 = (.yes, .yes)
    · simp [collectLoopAux, hyes]
    · exact absurd (hmu st hyes) (by omega)
  | succ f ih =>
    intro st hle
    by_cases hyes : (step st).2 = (.yes, .yes)
    · simp [collectLoopAux, hyes]
    · have hlt := hmu st hyes
      have hih := ih (step st).1 (by omega)
      simp only [collectLoopAux, hyes, if_false]
      refine ⟨hih.1, ?_⟩
      have := hih.2
      omega

/-- C3: termination of the main name-resolution loop of
`DefCollector::collect`. (1) For every round function and every starting
state the loop runs at most 1000 rounds. (2) It stops as soon as the import
pass and the macro pass both report `ReachedFixedPoint::Yes` in the same
round, returning after that single round. (3) For finite, acyclic input —
formalized as a progress measure `mu` that strictly decreases on every round
that has not yet reached the joint fixed point, with initial value at most
998 — the loop reaches the joint fixed point (it stops converged) in fewer
than 1000 rounds, rather than through the round cap. -/
theorem fixed_point_loop_termination (σ : Type) :
    (∀ (step : σ → σ × (ReachedFixedPoint × ReachedFixedPoint)) (st : σ),
      (collectLoop step st).2.1 ≤ 1000) ∧
    (∀ (step : σ → σ × (ReachedFixedPoint × ReachedFixedPoint)) (st st1 : σ),
      step st = (st1, (.yes, .yes)) → collectLoop step st = (st1, 1, true)) ∧
    (∀ (step : σ → σ × (ReachedFixedPoint × ReachedFixedPoint)) (mu : σ → Nat)
      (st : σ),
      (∀ s, (step s).2 ≠ (.yes, .yes) → mu (step s).1 < mu s) →
      mu st ≤ 998 →
      (collectLoop step st).2.2 = true ∧ (collectLoop step st).2.1 < 1000) := by
  refine ⟨?_, ?_, ?_⟩
  · intro step st
    have := collectLoopAux_rounds step 999 st
    simpa [collectLoop] using this
  · intro step st st1 h
    exact collectLoopAux_immediate step st st1 h 999
  · intro step mu st hmu hst
    have := collectLoopAux_converges step mu hmu 999 st (by omega)
    exact ⟨this.1, by have := this.2; simp only [collectLoop]; omega⟩

/-- Round function for the C3 witness: count down to zero, report the joint
fixed point at zero. -/
def stepC3 (n : Nat) : Nat × (ReachedFixedPoint × ReachedFixedPoint) :=
  (n - 1, if n = 0 then (.yes, .yes) else (.no, .no))

/-- Witness for C3: the loop on the countdown round function from 5 stays
within the round cap, stops immediately from 0, and converges from 5 in
fewer than 1000 rounds. -/
theorem fixed_point_loop_termination_witness :
    (collectLoop stepC3 5).2.1 ≤ 1000 ∧
    collectLoop stepC3 0 = (0, 1, true) ∧
    (collectLoop stepC3 5).2.2 = true ∧ (collectLoop stepC3 5).2.1 < 1000 := by
  refine ⟨(fixed_point_loop_termination Nat).1 stepC3 5,
    (fixed_point_loop_termination Nat).2.1 stepC3 0 0 rfl, ?_⟩
  refine (fixed_point_loop_termination Nat).2.2 stepC3 (fun n => n) 5 ?_ (by decide)
  intro s hne
  by_cases h0 : s = 0
  · subst h0
    simp [stepC3] at hne
  · simp only [stepC3]
    omega

theorem macroStep_keep_of_len (db : DbM) (st : DefCollectorM) (e : MacroEntry)
    (h : e.path.length ≠ 2) : macroStep db st e = .keepQueued := by
  obtain ⟨m, c, p, t⟩ := e
  simp only [MacroEntry.path] at h
  rcases p with _ | ⟨a, _ | ⟨b, _ | ⟨c2, rest⟩⟩⟩
  · simp [macroStep]
  · simp [macroStep]
  · simp at h
  · simp [macroStep]

theorem scanMacros_keep_mem (db : DbM) (st : DefCollectorM) :
    ∀ (q : List MacroEntry) (e : MacroEntry), e ∈ q →
      macroStep db st e = .keepQueued → e ∈ (scanMacros db st q).1 := by
  intro q
  induction q with
  | nil => intro e he _; simp at he
  | cons x xs ih =>
    intro e he hk
    rcases List.mem_cons.mp he with heq | hxs
    · subst heq
      simp [scanMacros, hk]
    · rcases hstep : macroStep db st x with _ | _ | rr <;>
        simp only [scanMacros, hstep] <;>
        first
          | exact List.mem_cons_of_mem _ (ih e hxs hk)
          | exact ih e hxs hk

theorem scanMacros_drop (db : DbM) (st : DefCollectorM) (e : MacroEntry)
    (h : macroStep db st e = .dropForever) :
    ∀ (q1 q2 : List MacroEntry),
      (scanMacros db st (q1 ++ e :: q2)).1
        = (scanMacros db st q1).1 ++ (scanMacros db st q2).1 ∧
      (scanMacros db st (q1 ++ e :: q2)).2.1
        = (scanMacros db st q1).2.1 ++ (scanMacros db st q2).2.1 := by
  intro q1
  induction q1 with
  | nil =>
    intro q2
    simp [scanMacros, h]
  | cons x xs ih =>
    intro q2
    rcases hstep : macroStep db st x with _ | _ | rr <;>
      simp [scanMacros, hstep, (ih q2).1, (ih q2).2]

/-- External database for the C5 counterexample inputs: package 3 owns
module 4 and exports only the macro `mk`. -/
def dbC5 : DbM :=
  ⟨fun _ _ => [], fun _ => [], fun K M => if K = 3 ∧ M = 4 then some 3 else none,
   fun k => if k = 3 then [("mk", 11)] else []⟩

/-- Collector state for the C5 counterexample inputs: the extern prelude
binds `pkg` to package 3's root module 4; the macro queue is empty. -/
def stC5 : DefCollectorM :=
  { krate := 0, root := 0, n_modules := 1,
    parentOf := fun _ => none, declarationOf := fun _ => none,
    definitionOf := fun _ => none, childrenOf := fun _ => [],
    scopes := fun _ => [], prelude_ := none,
    extern_prelude := [("pkg", .module 3 4)], public_macros := [], problems := [],
    glob_imports := fun _ => [], unresolved_imports := [], unexpanded_macros := [] }

/-- One-segment invocation: the retain closure keeps it. -/
def entC5keep : MacroEntry := ⟨0, 20, ["one"], 0⟩

/-- Two-segment invocation of an absent macro of a known package: the
retain closure removes it without resolving it. -/
def entC5drop : MacroEntry := ⟨0, 21, ["pkg", "absent"], 0⟩

/-- `stC5` with both invocations queued. -/
def stC5q : DefCollectorM :=
  { stC5 with unexpanded_macros := [entC5keep, entC5drop] }

/-- C5: the macro pass drops its whole queue instead of keeping
not-yet-actionable invocations queued for later rounds. The retain closure
itself decides as the claim describes — the one-segment invocation
`entC5keep` is in the vector the closure retains, and the absent-macro
invocation `entC5drop` is removed without entering the resolved list — but
`resolve_macros` moves the queue out of the state and never writes the
retained vector back, so for every database and every collector state the
post-pass queue is empty. On the concrete state `stC5q` queueing both
invocations, one pass resolves nothing and leaves the queue empty: the
kept invocation is gone and can never be retried in a later round,
contradicting the claim's "remain queued untouched". -/
theorem macro_queue_dropped_bug :
    (∀ (db : DbM) (dm : DefCollectorM),
      (resolve_macros_pass db dm).1.unexpanded_macros = []) ∧
    entC5keep ∈ (scanMacros dbC5 stC5 [entC5keep, entC5drop]).1 ∧
    (resolve_macros_pass dbC5 stC5q).2.1 = [] ∧
    (resolve_macros_pass dbC5 stC5q).1.unexpanded_macros = [] :=
  ⟨fun _ _ => rfl, by decide, by decide, rfl⟩

/- # Part 3: pseudo-file addressing (`ids.rs`, `hir_parse` and `parse_macro`) -/

/-- `HirFileId`: a real source file or the output of a macro call. -/
inductive HirFileIdM where
  | realFile (f : Nat)
  | macroCall (id : Nat)
deriving DecidableEq

/-- The database surface `parse_macro` consumes. A source file is embedded as
its list of items; the token-tree extraction
(`macro_call.token_tree().and_then(mbe::ast_to_token_tree)`), the macro
resolution recorded in the definition map (`def_map.resolve_macro`), and the
pattern-match expansion (`macro_rules.expand(..).ok()`) are external
fallible collaborators, embedded as `Option`-valued functions; the
token-tree-to-item-list conversion (`mbe::token_tree_to_ast_item_list`) and
the real-file parser (`db.parse`) are total. `SourceFile::parse("")` is the
empty item list. -/
structure MacroExpDb where
  parse : Nat → List Nat
  token_tree_of : Nat → Option Nat
  resolveMacroOf : Nat → Option (Nat × Nat)
  expandOf : Nat × Nat → Nat → Option Nat
  tt_to_items : Nat → List Nat

/-- `parse_macro` of `ids.rs`: extract the invocation's token tree, resolve
the macro through the definition map, expand, and convert the expansion to an
item list; any failing step makes the whole computation `none`. -/
def parse_macro_call (db : MacroExpDb) (macro_call_id : Nat) : Option (List Nat) :=
  match db.token_tree_of macro_call_id with
  | none => none
  | some macro_arg =>
    match db.resolveMacroOf macro_call_id with
    | none => none
    | some km =>
      match db.expandOf km macro_arg with
      | none => none
      | some tt => some (db.tt_to_items tt)

/-- `HirFileId::hir_parse`: a real file goes to the parser; a macro-origin
file goes to `parse_macro`, and on failure the result is
`SourceFile::parse("")` — the empty synthetic file. -/
def hir_parse (db : MacroExpDb) (file_id : HirFileIdM) : List Nat :=
  match file_id with
  | .realFile f => db.parse f
  | .macroCall id => (parse_macro_call db id).getD []

/-- C7: resolving a macro-origin pseudo-file address to syntax never fails:
`hir_parse` is total and equals the expansion's item list when every step
succeeds, while each failure mode — malformed invocation token tree,
unresolved macro, or pattern-match failure in expansion — yields the empty
synthetic source file (zero items) instead of an error. -/
theorem macro_file_parse_never_fails (db : MacroExpDb) (id : Nat) :
    hir_parse db (.macroCall id) = (parse_macro_call db id).getD [] ∧
    (db.token_tree_of id = none → hir_parse db (.macroCall id) = []) ∧
    (∀ tt, db.token_tree_of id = some tt → db.resolveMacroOf id = none →
      hir_parse db (.macroCall id) = []) ∧
    (∀ tt km, db.token_tree_of id = some tt → db.resolveMacroOf id = some km →
      db.expandOf km tt = none → hir_parse db (.macroCall id) = []) := by
  refine ⟨rfl, ?_, ?_, ?_⟩
  · intro h
    simp [hir_parse, parse_macro_call, h]
  · intro tt h1 h2
    simp [hir_parse, parse_macro_call, h1, h2]
  · intro tt km h1 h2 h3
    simp [hir_parse, parse_macro_call, h1, h2, h3]

/-- Database for the C7 witness: the invocation's token tree is readable and
the macro resolves, but expansion always fails its pattern match. -/
def dbC7 : MacroExpDb :=
  ⟨fun _ => [1, 2], fun _ => some 5, fun _ => some (2, 3), fun _ _ => none,
   fun _ => [9]⟩

/-- Witness for C7: with a failing expansion, the macro-origin file parses to
the empty synthetic file. -/
theorem macro_file_parse_never_fails_witness :
    hir_parse dbC7 (.macroCall 0) = [] :=
  (macro_file_parse_never_fails dbC7 0).2.2.2 5 (2, 3) rfl rfl rfl

/- # Part 4: out-of-line module resolution (`resolve_submodule`) -/

/-- Lookup of a relative path in a source root's file map (`sr.files.get`). -/
def lookupPath (files : List (RelPathM × Nat)) (p : RelPathM) : Option Nat :=
  (files.find? fun q => decide (q.1 = p)).map fun q => q.2

/-- The database surface of `resolve_submodule`: the declaring file's
relative path (already resolved through `original_file`, so a real file),
its source root, and the source root's file map. A path is embedded as its
directory segments, file stem, and extension, so `file_stem` and `parent`
are total projections. -/
structure SubDb where
  file_relative_path : Nat → RelPathM
  file_source_root : Nat → Nat
  source_root_files : Nat → List (RelPathM × Nat)

/-- `resolve_submodule`: build the candidate paths for `mod name;` — sibling
`name.rs` and directory-index `name/mod.rs` when the declaring file owns its
directory (it is the crate root or is itself a `mod.rs`), otherwise the
single `mod_name/name.rs` candidate — keep those that exist, and record an
unresolved-module problem carrying the first candidate when none do. -/
def resolve_submodule (db : SubDb) (file_id : Nat) (name : String)
    (is_root : Bool) : List Nat × Option ProblemM :=
  let path := db.file_relative_path file_id
  let source_root_id := db.file_source_root file_id
  let dir_path := path.dir
  let mod_name := path.stem
  let is_dir_owner := is_root || mod_name == "mod"
  let file_mod : RelPathM := ⟨dir_path, name, "rs"⟩
  let dir_mod : RelPathM := ⟨dir_path ++ [name], "mod", "rs"⟩
  let file_dir_mod : RelPathM := ⟨dir_path ++ [mod_name], name, "rs"⟩
  let candidates := if is_dir_owner then [file_mod, dir_mod] else [file_dir_mod]
  let sr := db.source_root_files source_root_id
  let points_to := candidates.filterMap fun p => lookupPath sr p
  let problem :=
    if points_to.isEmpty then
      some (.unresolvedModule (if is_dir_owner then file_mod else file_dir_mod))
    else none
  (points_to, problem)

/-- The `raw::ModuleData::Declaration` arm of `ModCollector::collect_module`:
resolve the module's candidate files; record the problem, if any; when a file
matched, push a child module and collect the child file's raw items
(abstracted as `collectChild`); when none matched, stop after recording the
problem. -/
def collect_module_declaration (db : SubDb) (st : DefCollectorM)
    (module_id : Nat) (file_id : Nat) (name : String) (item_id : Nat)
    (collectChild : DefCollectorM → Nat → Nat → Option DefCollectorM) :
    Option DefCollectorM :=
  let source_item_id := (file_id, item_id)
  let is_root := (st.parentOf module_id).isNone
  let fp := resolve_submodule db file_id name is_root
  let st1 :=
    match fp.2 with
    | some p => { st with problems := st.problems ++ [(source_item_id, p)] }
    | none => st
  match fp.1.head? with
  | some fid =>
    match push_child_module st1 module_id name source_item_id (some fid) with
    | none => none
    | some pr => collectChild pr.2 pr.1 fid
  | none => some st1

/-- C9: an out-of-line module declaration none of whose candidate source
files exists resolves to zero files plus one unresolved-module problem whose
candidate is the first candidate path (`name.rs` beside the declaring file
for a directory owner, `mod_name/name.rs` otherwise), and the collector then
records exactly that one problem and creates no child module and no scope
entry — the state is unchanged except for the problem list. -/
theorem unresolved_module_declaration :
    (∀ (db : SubDb) (file_id : Nat) (name : String) (is_root : Bool),
      (∀ p, lookupPath (db.source_root_files (db.file_source_root file_id)) p
        = none) →
      resolve_submodule db file_id name is_root
        = ([], some (.unresolvedModule
            (if is_root || (db.file_relative_path file_id).stem == "mod" then
              ⟨(db.file_relative_path file_id).dir, name, "rs"⟩
            else
              ⟨(db.file_relative_path file_id).dir
                ++ [(db.file_relative_path file_id).stem], name, "rs"⟩)))) ∧
    (∀ (db : SubDb) (st : DefCollectorM) (module_id file_id : Nat)
      (name : String) (item_id : Nat)
      (collectChild : DefCollectorM → Nat → Nat → Option DefCollectorM)
      (prob : ProblemM) (st2 : DefCollectorM),
      resolve_submodule db file_id name ((st.parentOf module_id).isNone)
        = ([], some prob) →
      collect_module_declaration db st module_id file_id name item_id collectChild
        = some st2 →
      st2 = { st with problems := st.problems ++ [((file_id, item_id), prob)] }) := by
  constructor
  · intro db file_id name is_root hmiss
    rcases hdo : is_root || (db.file_relative_path file_id).stem == "mod" with _ | _
    · simp [resolve_submodule, hdo, hmiss]
    · simp [resolve_submodule, hdo, hmiss]
  · intro db st module_id file_id name item_id collectChild prob st2 hres hcol
    rw [collect_module_declaration] at hcol
    simp only [hres, List.head?_nil, Option.some.injEq] at hcol
    exact hcol.symm

/-- Database for the C9 witness: the crate root is `lib.rs` at the top of an
otherwise empty source root. -/
def dbC9 : SubDb :=
  ⟨fun _ => ⟨[], "lib", "rs"⟩, fun _ => 0, fun _ => []⟩

/-- Collector state for the C9 witness: a single root module with no parent
and no problems. -/
def stC9 : DefCollectorM :=
  { krate := 0, root := 0, n_modules := 1,
    parentOf := fun _ => none, declarationOf := fun _ => none,
    definitionOf := fun _ => none, childrenOf := fun _ => [],
    scopes := fun _ => [], prelude_ := none,
    extern_prelude := [], public_macros := [], problems := [],
    glob_imports := fun _ => [], unresolved_imports := [], unexpanded_macros := [] }

/-- Witness for C9, the spec scenario: `mod sub;` in the crate root with
neither `sub.rs` nor `sub/mod.rs` present yields zero files, one problem
whose candidate is `sub.rs`, no new module, and no scope entry for `sub`. -/
theorem unresolved_module_declaration_witness :
    resolve_submodule dbC9 0 "sub" true
      = ([], some (.unresolvedModule ⟨[], "sub", "rs"⟩)) ∧
    ((collect_module_declaration dbC9 stC9 0 0 "sub" 4 (fun s _ _ => some s)).get
        (by decide)).problems = [((0, 4), .unresolvedModule ⟨[], "sub", "rs"⟩)] ∧
    ((collect_module_declaration dbC9 stC9 0 0 "sub" 4 (fun s _ _ => some s)).get
        (by decide)).n_modules = 1 ∧
    lookupScope (((collect_module_declaration dbC9 stC9 0 0 "sub" 4
        (fun s _ _ => some s)).get (by decide)).scopes 0) "sub" = emptyResolution := by
  have hs : (collect_module_declaration dbC9 stC9 0 0 "sub" 4
      (fun s _ _ => some s)).isSome = true := by decide
  have h1 := unresolved_module_declaration.1 dbC9 0 "sub" true (fun p => rfl)
  have h2 := unresolved_module_declaration.2 dbC9 stC9 0 0 "sub" 4 (fun s _ _ => some s)
    (.unresolvedModule ⟨[], "sub", "rs"⟩)
    ((collect_module_declaration dbC9 stC9 0 0 "sub" 4 (fun s _ _ => some s)).get hs)
    (by exact h1) (Option.some_get hs).symm
  refine ⟨by exact h1, ?_, ?_, ?_⟩
  · rw [h2]
    decide
  · rw [h2]
    decide
  · rw [h2]
    decide

/-- The entry an empty-resolution import application leaves behind: only a
fully empty entry picks up the import's provenance. -/
def emptyImportEntry (old : Resolution) (iid : Nat) : Resolution :=
  if old.def_.types = none ∧ old.def_.values = none ∧ old.imp = none
  then { old with imp := some iid } else old

theorem applyOne_empty_def (ii : Option Nat) (existing : Resolution) (iid : Nat) :
    applyOne ii existing ⟨perNsNone, some iid⟩ = (emptyImportEntry existing iid, false) := by
  obtain ⟨⟨ot, ov⟩, oi⟩ := existing
  cases ot <;> cases ov <;> cases oi <;> simp [applyOne, perNsNone, oor, emptyImportEntry]

/-- The scope an empty-resolution import application leaves in the target
module. -/
def applyEmptyScope (s : DefCollectorM) (m2 : Nat) (name : String) (iid : Nat) : ScopeM :=
  setScope (s.scopes m2) name (emptyImportEntry (lookupScope (s.scopes m2) name) iid)

theorem update_empty_def (s : DefCollectorM) (m2 : Nat) (ii2 : Option Nat)
    (name : String) (iid : Nat) :
    update s m2 ii2 [(name, ⟨perNsNone, some iid⟩)]
      = some { s with scopes := Function.update s.scopes m2 (applyEmptyScope s m2 name iid) } := by
  rw [update, update_recursive, show (101 : Nat) - 0 = 100 + 1 from rfl,
    update_rec_fuel, applyResolutions_singleton, applyOne_empty_def]
  rfl

theorem foldOpt_append_cons {α β : Type} (f : α → β → Option α) :
    ∀ (q1 : List β) (e : β) (q2 : List β) (a a2 : α),
      foldOpt f a (q1 ++ e :: q2) = some a2 →
      ∃ aMid aMid2, foldOpt f a q1 = some aMid ∧ f aMid e = some aMid2 ∧
        foldOpt f aMid2 q2 = some a2 := by
  intro q1
  induction q1 with
  | nil =>
    intro e q2 a a2 h
    simp only [List.nil_append, foldOpt] at h
    rcases he : f a e with _ | a1
    · rw [he] at h; exact absurd h (by simp)
    · rw [he] at h
      exact ⟨a, a1, rfl, he, h⟩
  | cons x xs ih =>
    intro e q2 a a2 h
    simp only [List.cons_append, foldOpt] at h
    rcases hx : f a x with _ | a1
    · rw [hx] at h; exact absurd h (by simp)
    · rw [hx] at h
      obtain ⟨aMid, aMid2, h1, h2, h3⟩ := ih e q2 a1 a2 h
      exact ⟨aMid, aMid2, by simp only [foldOpt, hx]; exact h1, h2, h3⟩

theorem record_empty_apply (db : DbM) (s : DefCollectorM) (m2 iid : Nat)
    (d : ImportDataM) (s2 : DefCollectorM)
    (h : record_resolved_import db s m2 perNsNone iid d = some s2) :
    s2.unresolved_imports = s.unresolved_imports ∧
    (∀ B n, lookupScope (s2.scopes B) n = lookupScope (s.scopes B) n
      ∨ ((lookupScope (s2.scopes B) n).def_ = (lookupScope (s.scopes B) n).def_
         ∧ (lookupScope (s2.scopes B) n).imp ≠ none)) ∧
    (∀ B n, lookupAssoc (s.scopes B) n ≠ none → lookupAssoc (s2.scopes B) n ≠ none) ∧
    (d.is_glob = false → ∀ last, d.path.getLast? = some last →
      lookupAssoc (s2.scopes m2) (d.alias_.getD last) ≠ none ∧
      ((lookupScope (s.scopes m2) (d.alias_.getD last) = emptyResolution
          ∨ (lookupScope (s.scopes m2) (d.alias_.getD last)).imp ≠ none) →
        (lookupScope (s2.scopes m2) (d.alias_.getD last)).imp ≠ none)) := by
  rcases hglob : d.is_glob with _ | _
  · rcases hlast : d.path.getLast? with _ | last
    · simp only [record_resolved_import, hglob, Bool.false_eq_true, if_false,
        hlast] at h
      simp only [Option.some.injEq] at h
      subst h
      refine ⟨rfl, fun B n => Or.inl rfl, fun B n hx => hx, ?_⟩
      intro _ last2 hl2
      exact absurd hl2 (by simp)
    · simp only [record_resolved_import, hglob, Bool.false_eq_true, if_false,
        hlast, perNsNone, ite_self] at h
      rw [show ({ types := none, values := none } : PerNsM) = perNsNone from rfl,
        update_empty_def] at h
      simp only [Option.some.injEq] at h
      subst h
      refine ⟨rfl, ?_, ?_, ?_⟩
      · intro B n
        simp only [Function.update_apply]
        by_cases hB : B = m2
        · rw [if_pos hB, applyEmptyScope, lookupScope_setScope]
          by_cases hn : n = d.alias_.getD last
          · rw [if_pos hn, emptyImportEntry]
            subst hB
            by_cases hc : (lookupScope (s.scopes B) (d.alias_.getD last)).def_.types = none
                ∧ (lookupScope (s.scopes B) (d.alias_.getD last)).def_.values = none
                ∧ (lookupScope (s.scopes B) (d.alias_.getD last)).imp = none
            · rw [if_pos hc]
              subst hn
              exact Or.inr ⟨rfl, by simp⟩
            · rw [if_neg hc]
              subst hn
              exact Or.inl rfl
          · rw [if_neg hn, hB]
            exact Or.inl rfl
        · rw [if_neg hB]
          exact Or.inl rfl
      · intro B n hx
        simp only [Function.update_apply]
        by_cases hB : B = m2
        · rw [if_pos hB, applyEmptyScope]
          by_cases hn : n = d.alias_.getD last
          · rw [hn, setScope]
            simp [lookupAssoc_insertAssoc_self]
          · rw [setScope, lookupAssoc_insertAssoc_ne _ _ hn, ← hB]
            exact hx
        · rw [if_neg hB]
          exact hx
      · intro _ last2 hl2
        have hl2e : last = last2 := Option.some.inj hl2
        subst hl2e
        constructor
        · simp only [Function.update_same, applyEmptyScope, setScope]
          simp [lookupAssoc_insertAssoc_self]
        · intro hpre
          simp only [Function.update_same, applyEmptyScope, lookupScope_setScope,
            if_pos rfl, emptyImportEntry]
          rcases hpre with hdef | himp
          · have hcond : (lookupScope (s.scopes m2) (d.alias_.getD last)).def_.types = none
                ∧ (lookupScope (s.scopes m2) (d.alias_.getD last)).def_.values = none
                ∧ (lookupScope (s.scopes m2) (d.alias_.getD last)).imp = none := by
              rw [hdef]
              exact ⟨rfl, rfl, rfl⟩
            rw [if_pos hcond]
            simp
          · have hcond : ¬((lookupScope (s.scopes m2) (d.alias_.getD last)).def_.types = none
                ∧ (lookupScope (s.scopes m2) (d.alias_.getD last)).def_.values = none
                ∧ (lookupScope (s.scopes m2) (d.alias_.getD last)).imp = none) :=
              fun hc => himp hc.2.2
            rw [if_neg hcond]
            exact himp
  · simp only [record_resolved_import, hglob, if_true, perNsNone] at h
    simp only [Option.some.injEq] at h
    subst h
    refine ⟨rfl, fun B n => Or.inl rfl, fun B n hx => hx, ?_⟩
    intro hng
    exact absurd hng (by simp)

theorem slot_of_def_eq {r1 r2 : Resolution} (h : r1.def_ = r2.def_) (ns : NsKind) :
    r1.slot ns = r2.slot ns := by
  cases ns <;> simp [Resolution.slot, h]

/-- C6 (amended): after the fixed-point loop, draining the unresolved-import
queue applies every remaining import with `PerNs::none()` and leaves the
queue empty; applying an empty resolution never changes any namespace slot,
so the remaining imports bind nothing; every non-glob import with a nonempty
path leaves its target name present in the importing module's scope, and
when that name previously had no binding and no provenance at all, the
surviving entry carries import provenance. (The claim as frozen is corrected:
a glob import in the queue binds no name at all, and a name that already had
a binding keeps its old provenance, so not every queued import leaves an
entry that only has import provenance.) -/
theorem unresolved_imports_drained (db : DbM) (st st2 : DefCollectorM)
    (h : apply_unresolved_imports db st = some st2) :
    st2.unresolved_imports = [] ∧
    (∀ m n ns, scopeSlot st2 m n ns = scopeSlot st m n ns) ∧
    (∀ m iid d, (m, iid, d) ∈ st.unresolved_imports → d.is_glob = false →
      ∀ last, d.path.getLast? = some last →
        lookupAssoc (st2.scopes m) (d.alias_.getD last) ≠ none ∧
        (lookupScope (st.scopes m) (d.alias_.getD last) = emptyResolution →
          (lookupScope (st2.scopes m) (d.alias_.getD last)).imp ≠ none)) := by
  simp only [apply_unresolved_imports] at h
  refine ⟨?_, ?_, ?_⟩
  · refine foldOpt_inv _ (fun s => s.unresolved_imports = []) _ _ _ h rfl ?_
    intro s g s2 _ hg hQ
    show s2.unresolved_imports = []
    rw [(record_empty_apply db s g.1 g.2.1 g.2.2 s2 hg).1]
    exact hQ
  · refine foldOpt_inv _
      (fun s => ∀ m n ns, scopeSlot s m n ns = scopeSlot st m n ns) _ _ _ h
      (fun m n ns => rfl) ?_
    intro s g s2 _ hg hQ
    intro m n ns
    rcases (record_empty_apply db s g.1 g.2.1 g.2.2 s2 hg).2.1 m n with he | hdi
    · show (lookupScope (s2.scopes m) n).slot ns = scopeSlot st m n ns
      rw [he]
      exact hQ m n ns
    · show (lookupScope (s2.scopes m) n).slot ns = scopeSlot st m n ns
      rw [slot_of_def_eq hdi.1 ns]
      exact hQ m n ns
  · intro m iid d hmem hng last hlast
    obtain ⟨q1, q2, hq⟩ := List.append_of_mem hmem
    rw [hq] at h
    obtain ⟨aMid, aMid2, h1, h2, h3⟩ := foldOpt_append_cons _ q1 _ q2 _ _ h
    have hmid := (record_empty_apply db aMid m iid d aMid2 h2).2.2.2 hng last hlast
    constructor
    · refine foldOpt_inv _
        (fun s => lookupAssoc (s.scopes m) (d.alias_.getD last) ≠ none) _ _ _ h3
        hmid.1 ?_
      intro s g s2 _ hg hQ
      exact (record_empty_apply db s g.1 g.2.1 g.2.2 s2 hg).2.2.1 m _ hQ
    · intro hdef0
      have hP : lookupScope (aMid.scopes m) (d.alias_.getD last) = emptyResolution
          ∨ (lookupScope (aMid.scopes m) (d.alias_.getD last)).imp ≠ none := by
        refine foldOpt_inv _ (fun s =>
          lookupScope (s.scopes m) (d.alias_.getD last) = emptyResolution
            ∨ (lookupScope (s.scopes m) (d.alias_.getD last)).imp ≠ none) _ _ _ h1
          (Or.inl hdef0) ?_
        intro s g s2 _ hg hQ
        rcases (record_empty_apply db s g.1 g.2.1 g.2.2 s2 hg).2.1 m
            (d.alias_.getD last) with he | hdi
        · show lookupScope (s2.scopes m) (d.alias_.getD last) = emptyResolution
            ∨ (lookupScope (s2.scopes m) (d.alias_.getD last)).imp ≠ none
          rw [he]
          exact hQ
        · exact Or.inr hdi.2
      refine foldOpt_inv _ (fun s =>
          (lookupScope (s.scopes m) (d.alias_.getD last)).imp ≠ none) _ _ _ h3
        (hmid.2 hP) ?_
      intro s g s2 _ hg hQ
      rcases (record_empty_apply db s g.1 g.2.1 g.2.2 s2 hg).2.1 m
          (d.alias_.getD last) with he | hdi
      · show (lookupScope (s2.scopes m) (d.alias_.getD last)).imp ≠ none
        rw [he]
        exact hQ
      · exact hdi.2

/-- State for the C6 counterexample: module 0 already binds `z` directly (no
provenance) and the queue still contains a non-glob import of `z`. -/
def stC6 : DefCollectorM :=
  { krate := 0, root := 0, n_modules := 1,
    parentOf := fun _ => none, declarationOf := fun _ => none,
    definitionOf := fun _ => none, childrenOf := fun _ => [],
    scopes := fun m => if m = 0 then [("z", ⟨⟨some (.other 5), none⟩, none⟩)] else [],
    prelude_ := none, extern_prelude := [], public_macros := [], problems := [],
    glob_imports := fun _ => [],
    unresolved_imports := [(0, 3, ⟨["z"], none, false, false, false⟩)],
    unexpanded_macros := [] }

/-- Counterexample for C6 as frozen: the queued import of `z` is applied with
an empty resolution, but because `z` is already bound by a direct definition,
the surviving entry has no import provenance and still binds the direct
definition — so it is not true that every drained import leaves the name
present "with import provenance but binding nothing". -/
theorem unresolved_imports_counterexample :
    stC6.unresolved_imports = [(0, 3, ⟨["z"], none, false, false, false⟩)] ∧
    (lookupScope (((apply_unresolved_imports dbC4 stC6).get (by decide)).scopes 0)
      "z").imp = none ∧
    (lookupScope (((apply_unresolved_imports dbC4 stC6).get (by decide)).scopes 0)
      "z").def_.types = some (.other 5) := by
  refine ⟨by decide, by decide, by decide⟩

/-- State for the C6 witness: an empty module 0 and a queue holding one
non-glob import of the unbound name `w` and one glob import. -/
def stC6w : DefCollectorM :=
  { krate := 0, root := 0, n_modules := 1,
    parentOf := fun _ => none, declarationOf := fun _ => none,
    definitionOf := fun _ => none, childrenOf := fun _ => [],
    scopes := fun _ => [], prelude_ := none, extern_prelude := [],
    public_macros := [], problems := [], glob_imports := fun _ => [],
    unresolved_imports := [(0, 3, ⟨["w"], none, false, false, false⟩),
                           (0, 4, ⟨["g"], none, true, false, false⟩)],
    unexpanded_macros := [] }

/-- Witness for C6 (amended): draining the queue empties it, changes no
namespace slot, and leaves fresh name `w` present with import provenance. -/
theorem unresolved_imports_drained_witness :
    ((apply_unresolved_imports dbC4 stC6w).get (by decide)).unresolved_imports = [] ∧
    scopeSlot ((apply_unresolved_imports dbC4 stC6w).get (by decide)) 0 "w"
      .typesNs = scopeSlot stC6w 0 "w" .typesNs ∧
    lookupAssoc (((apply_unresolved_imports dbC4 stC6w).get (by decide)).scopes 0)
      "w" ≠ none ∧
    (lookupScope (((apply_unresolved_imports dbC4 stC6w).get (by decide)).scopes 0)
      "w").imp ≠ none := by
  have hs : (apply_unresolved_imports dbC4 stC6w).isSome = true := by decide
  have hd := unresolved_imports_drained dbC4 stC6w
    ((apply_unresolved_imports dbC4 stC6w).get hs) (Option.some_get hs).symm
  have hmem : ((0 : Nat), (3 : Nat), (⟨["w"], none, false, false, false⟩ : ImportDataM))
      ∈ stC6w.unresolved_imports := by decide
  have hw := hd.2.2 0 3 ⟨["w"], none, false, false, false⟩ hmem rfl "w" rfl
  exact ⟨hd.1, hd.2.1 0 "w" .typesNs, hw.1, hw.2 (by decide)⟩
